import Mathlib

/-!
Verification of the `clstr` crate: a parser and writer for CD-HIT `.clstr`
cluster files, plus the small post-processing operations of its CLI.

The embedding models text as `List Char` (one list per input line, matching
the `BufRead::lines` interface the Rust parser consumes).  Machine integers
are `Nat` with explicit `2 ^ 32` bounds where `u32` overflow matters.
Floating-point identity percentages are modelled as exact rationals `ℚ`:
the Rust code parses them with `f32::from_str` and re-renders with
`{:.2}`; the model mirrors the accepted textual grammar (sign, digits,
optional fraction, optional exponent) and computes the exact decimal value.
Non-finite spellings (`inf`, `nan`) and binary rounding of `f32` are outside
the rational model; two-decimal rounding is modelled with `round` (ties up),
which agrees with the Rust formatter except on exact decimal ties.

`std::io::Error` values can only arise from the underlying stream, which the
line-list interface abstracts away, so the `Io` error variant is not
modelled.
-/

namespace Clstr

/-! ## Character and digit helpers -/

/-- Decimal digit character for a value below ten. -/
def digitChar (n : Nat) : Char := Char.ofNat (48 + n)

/-- Fuel-driven decimal rendering; `natDigits` supplies sufficient fuel. -/
def natDigitsAux : Nat → Nat → List Char
  | 0, _ => []
  | fuel + 1, n =>
    if n < 10 then [digitChar n]
    else natDigitsAux fuel (n / 10) ++ [digitChar (n % 10)]

/-- Decimal digits of a natural number, most significant first (`{}` of an
unsigned integer in Rust formatting). -/
def natDigits (n : Nat) : List Char := natDigitsAux (n + 1) n

/-- Value of a digit string, as folded up by `u32::from_str`. -/
def digitsVal (l : List Char) : Nat :=
  l.foldl (fun a c => 10 * a + (c.toNat - 48)) 0

/-- Strip one optional leading plus sign, as `u32::from_str` allows. -/
def stripPlusSign : List Char → List Char
  | '+' :: rest => rest
  | s => s

/-- Model of `str::parse::<u32>`: an optional `+`, then one or more ASCII
digits, value below `2 ^ 32` (otherwise the Rust parse overflows and errors). -/
def parseU32 (s : List Char) : Option Nat :=
  let t := stripPlusSign s
  if t = [] then none
  else if t.all Char.isDigit then
    if digitsVal t < 2 ^ 32 then some (digitsVal t) else none
  else none

/-! ## Whitespace tokenization (`str::split_whitespace`) -/

/-- Accumulator-driven splitter: `acc` holds the reversed current token. -/
def splitWsAux : List Char → List Char → List (List Char)
  | [], acc => if acc = [] then [] else [acc.reverse]
  | c :: cs, acc =>
    if c.isWhitespace then
      if acc = [] then splitWsAux cs [] else acc.reverse :: splitWsAux cs []
    else splitWsAux cs (c :: acc)

/-- Model of `split_whitespace().collect()`: maximal runs of
non-whitespace characters, empties dropped. -/
def splitWs (l : List Char) : List (List Char) := splitWsAux l []

/-! ## Substring search (`str::find` / first segment of `str::split`) -/

/-- Whether `sep` occurs at the head of `l`. -/
def isPrefixL (sep l : List Char) : Bool := decide (l.take sep.length = sep)

/-- Split at the first occurrence of `sep`: `some (before, after)` when `sep`
occurs, `none` otherwise.  Models `str::find` plus slicing. -/
def splitFirst? (sep : List Char) : List Char → Option (List Char × List Char)
  | [] => if sep = [] then some ([], []) else none
  | c :: cs =>
    if isPrefixL sep (c :: cs) then some ([], (c :: cs).drop sep.length)
    else (splitFirst? sep cs).map fun p => (c :: p.1, p.2)

/-- First segment of `str::split(sep)`: the text before the first occurrence
of `sep`, or the whole string when `sep` does not occur.  Rust's `split`
always yields this first segment, so `.next()` never returns `None`. -/
def firstSegment (sep l : List Char) : List Char :=
  match splitFirst? sep l with
  | some p => p.1
  | none => l

/-- Model of `str::strip_suffix`. -/
def stripSuffix? (suf l : List Char) : Option (List Char) :=
  if suf.length ≤ l.length ∧ l.drop (l.length - suf.length) = suf then
    some (l.take (l.length - suf.length))
  else none

/-- Model of `trim_end_matches('%')`: remove every trailing `%`. -/
def trimRightPercent (l : List Char) : List Char :=
  (l.reverse.dropWhile fun c => decide (c = '%')).reverse

/-! ## Rational model of `f32::from_str` and `{:.2}` formatting -/

/-- Exponent part after `e`/`E`: optional sign then one or more digits. -/
def parseExpPart? (s : List Char) : Option Int :=
  match s with
  | '+' :: t =>
    if t ≠ [] ∧ t.all Char.isDigit then some (digitsVal t : Int) else none
  | '-' :: t =>
    if t ≠ [] ∧ t.all Char.isDigit then some (-(digitsVal t : Int)) else none
  | t =>
    if t ≠ [] ∧ t.all Char.isDigit then some (digitsVal t : Int) else none

/-- Mantissa: digits with an optional single decimal point, at least one
digit overall. -/
def parseMantissa? (s : List Char) : Option ℚ :=
  let ip := s.takeWhile fun c => decide (c ≠ '.')
  match s.dropWhile fun c => decide (c ≠ '.') with
  | [] =>
    if ip ≠ [] ∧ ip.all Char.isDigit then some (digitsVal ip : ℚ) else none
  | _ :: fp =>
    if (ip ≠ [] ∨ fp ≠ []) ∧ ip.all Char.isDigit ∧ fp.all Char.isDigit then
      some ((digitsVal ip : ℚ) + (digitsVal fp : ℚ) / (10 : ℚ) ^ fp.length)
    else none

/-- Unsigned float: mantissa with an optional `e`/`E` exponent. -/
def parseUnsignedFloat? (s : List Char) : Option ℚ :=
  let m := s.takeWhile fun c => decide (c ≠ 'e' ∧ c ≠ 'E')
  match s.dropWhile fun c => decide (c ≠ 'e' ∧ c ≠ 'E') with
  | [] => parseMantissa? m
  | _ :: ex =>
    (parseMantissa? m).bind fun v =>
      (parseExpPart? ex).map fun k => v * (10 : ℚ) ^ k

/-- Rational model of `f32::from_str` on finite decimal spellings. -/
def parseFloat? (s : List Char) : Option ℚ :=
  match s with
  | '+' :: t => parseUnsignedFloat? t
  | '-' :: t => (parseUnsignedFloat? t).map fun q => -q
  | t => parseUnsignedFloat? t

/-- Value printed by `{:.2}`: the argument rounded to two decimal places. -/
def roundTo2 (q : ℚ) : ℚ := ((round (100 * q) : ℤ) : ℚ) / 100

/-- Two-character zero-padded rendering of a value below one hundred. -/
def twoFracDigits (n : Nat) : List Char :=
  (if n < 10 then ['0'] else []) ++ natDigits n

/-- Text produced by `{:.2}` formatting of a (finite) float. -/
def fmt2 (q : ℚ) : List Char :=
  let r : ℤ := round (100 * q)
  (if r < 0 then ['-'] else [])
    ++ natDigits (r.natAbs / 100) ++ '.' :: twoFracDigits (r.natAbs % 100)

/-! ## Data model (`Sequence`, `Cluster`, `ErrorKind`) -/

/-- A single sequence entry in a cluster (`clstr::Sequence`). -/
structure Sequence where
  length : Nat
  id : List Char
  identity : Option ℚ
  is_representative : Bool
deriving DecidableEq

/-- A cluster of sequences (`clstr::Cluster`). -/
structure Cluster where
  cluster_id : Nat
  sequences : List Sequence
deriving DecidableEq

/-- Error kinds of `clstr::ErrorKind`.  `intErr` models `Int(ParseIntError)`,
`floatErr` models `Float(ParseFloatError)`; `readRecord` carries the message
built with `format!`, which embeds the offending line.  The `Io` variant
cannot arise in the line-list model. -/
inductive ErrorKind where
  | intErr : ErrorKind
  | floatErr : ErrorKind
  | readRecord : List Char → ErrorKind
deriving DecidableEq

deriving instance DecidableEq for Except

/-! ## The sequence-line micro-parser (`parse_sequence_line`) -/

/-- Model of `clstr::parse_sequence_line`, following the source step by step:
whitespace tokens, `aa,` length suffix, `u32` parse, id from token 2 with all
leading `>` stripped and cut at the first `...` (the `ok_or_else` guard in
the source is dead code, because `split(...).next()` always yields the first
segment), trailing `*` flag, and the text after the first `" at "` parsed as
a float after trailing `%` are trimmed. -/
def parse_sequence_line (line : List Char) : Except ErrorKind Sequence :=
  let parts := splitWs line
  if parts.length < 3 then
    .error (.readRecord (("Invalid sequence line: ").toList ++ line))
  else
    match stripSuffix? (("aa,").toList) (parts.getD 1 []) with
    | none => .error (.readRecord (("Invalid length format: ").toList ++ line))
    | some lenDigits =>
      match parseU32 lenDigits with
      | none => .error .intErr
      | some len =>
        let id := firstSegment (("...").toList)
          ((parts.getD 2 []).dropWhile fun c => decide (c = '>'))
        let isRep : Bool := decide (line.getLast? = some '*')
        match splitFirst? ((" at ").toList) line with
        | none => .ok ⟨len, id, none, isRep⟩
        | some p =>
          match parseFloat? (trimRightPercent p.2) with
          | none => .error .floatErr
          | some q => .ok ⟨len, id, some q, isRep⟩

/-! ## The streaming parser (`ClstrParser::next`, driven to completion)

`ClstrParser` is an iterator; callers in this crate drive it with `collect`
or a `for` loop that stops at the first `Err`.  `processLines` runs the
line-at-a-time state machine of `ClstrParser::next` over a list of lines:
it returns the clusters emitted so far, the pending cluster still being
accumulated (the iterator's `current_cluster` field), and the first error if
one occurred.  `runItems` packages this as the item stream a caller
observes: on clean end of input the pending cluster is emitted last; on an
error the pending cluster is never yielded. -/

def processLines : Option Cluster → List (List Char) →
    List Cluster × Option Cluster × Option ErrorKind
  | cur, [] => ([], cur, none)
  | cur, line :: rest =>
    if line.head? = some '>' then
      match cur with
      | some c =>
        let r := processLines (some ⟨c.cluster_id + 1, []⟩) rest
        (c :: r.1, r.2.1, r.2.2)
      | none =>
        -- `map_or(0, ...)` in the source: the cluster was just confirmed
        -- absent, so the id is 0.
        processLines (some ⟨0, []⟩) rest
    else
      match cur with
      | some c =>
        match parse_sequence_line line with
        | .ok s => processLines (some ⟨c.cluster_id, c.sequences ++ [s]⟩) rest
        | .error e => ([], some c, some e)
      | none => processLines none rest

/-- The `Result<Cluster>` stream produced by exhausting the iterator:
clusters yielded in order, with the first error (if any) ending the stream. -/
def runItems (cur : Option Cluster) (lines : List (List Char)) :
    List Cluster × Option ErrorKind :=
  match processLines cur lines with
  | (cs, st, none) => (cs ++ st.toList, none)
  | (cs, _, some e) => (cs, some e)

/-- Number of lines that the parser treats as cluster headers. -/
def headerCount (lines : List (List Char)) : Nat :=
  (lines.filter fun l => decide (l.head? = some '>')).length

/-! ## The writer (`ClstrWriter`) -/

/-- Model of `ClstrWriter::write_sequence`: one output line
`{index}    {length}aa, >{id}...[ at {identity:.2}%][ *]`. -/
def write_sequence (index : Nat) (s : Sequence) : List Char :=
  natDigits index ++ ("    ").toList ++ natDigits s.length
    ++ ("aa, >").toList ++ s.id ++ ("...").toList
    ++ (match s.identity with
        | some q => (" at ").toList ++ fmt2 q ++ ['%']
        | none => [])
    ++ (if s.is_representative then (" *").toList else [])

/-- Member lines written by the `enumerate` loop, starting at index `i`. -/
def writeSeqLinesFrom (i : Nat) : List Sequence → List (List Char)
  | [] => []
  | s :: ss => write_sequence i s :: writeSeqLinesFrom (i + 1) ss

/-- Model of `ClstrWriter::write_cluster`: the `>Cluster {id}` header line
followed by the member lines numbered from 0. -/
def write_cluster (c : Cluster) : List (List Char) :=
  ((">Cluster ").toList ++ natDigits c.cluster_id) :: writeSeqLinesFrom 0 c.sequences

/-- Writing every cluster in order. -/
def writeClusters (cs : List Cluster) : List (List Char) :=
  (cs.map write_cluster).flatten

/-! ## Cluster operations (`Cluster` methods and `main.rs` helpers) -/

/-- Model of `Cluster::size`. -/
def Cluster.size (c : Cluster) : Nat := c.sequences.length

/-- Model of `Cluster::get_representative`:
`self.sequences.iter().find(|s| s.is_representative)`. -/
def Cluster.get_representative (c : Cluster) : Option Sequence :=
  c.sequences.find? fun s => s.is_representative

/-- Stable descending insertion: `x` (the earlier cluster) walks past only
strictly larger clusters and stops in front of the first cluster of equal or
smaller size, so clusters of equal size keep their original relative order,
as Rust's stable `sort_by_key` does. -/
def insertBySizeDesc (x : Cluster) : List Cluster → List Cluster
  | [] => [x]
  | y :: ys => if x.size < y.size then y :: insertBySizeDesc x ys else x :: y :: ys

/-- Stable sort by descending size: model of
`clusters.sort_by_key(|b| Reverse(b.size()))` (Rust's `sort_by_key` is
stable). -/
def sortBySizeDesc : List Cluster → List Cluster
  | [] => []
  | x :: xs => insertBySizeDesc x (sortBySizeDesc xs)

/-- Core of `main.rs::top_n`: collect, stable-sort by descending size, take
the first `n`. -/
def top_n (n : Nat) (cs : List Cluster) : List Cluster :=
  (sortBySizeDesc cs).take n

/-! ## Normalized round-trip image -/

/-- Field-wise image of one sequence after write-then-reparse: identity is
re-rendered at two decimals, everything else is unchanged. -/
def roundSeq (s : Sequence) : Sequence :=
  ⟨s.length, s.id, s.identity.map roundTo2, s.is_representative⟩

/-- Expected clusters of the second parse, re-numbered from `i`. -/
def normClustersFrom (i : Nat) : List Cluster → List Cluster
  | [] => []
  | c :: cs => ⟨i, c.sequences.map roundSeq⟩ :: normClustersFrom (i + 1) cs

/-! ## Lemmas: digits and characters -/

theorem digitChar_isDigit {n : Nat} (h : n < 10) : (digitChar n).isDigit = true := by
  interval_cases n <;> decide

theorem digitChar_toNat {n : Nat} (h : n < 10) : (digitChar n).toNat = 48 + n := by
  interval_cases n <;> decide

theorem isDigit_ne {c x : Char} (hc : c.isDigit = true) (hx : x.isDigit = false) : c ≠ x := by
  intro e; subst e; rw [hx] at hc; cases hc

theorem natDigitsAux_fuel :
    ∀ (f g n : Nat), n < f → n < g → natDigitsAux f n = natDigitsAux g n := by
  intro f
  induction f with
  | zero => intro g n hf _; omega
  | succ f ih =>
    intro g n hf hg
    cases g with
    | zero => omega
    | succ g =>
      simp only [natDigitsAux]
      by_cases h : n < 10
      · simp [h]
      · rw [if_neg h, if_neg h, ih g (n / 10) (by omega) (by omega)]

theorem natDigits_lt10 {n : Nat} (h : n < 10) : natDigits n = [digitChar n] := by
  simp [natDigits, natDigitsAux, h]

theorem natDigits_ge10 {n : Nat} (h : 10 ≤ n) :
    natDigits n = natDigits (n / 10) ++ [digitChar (n % 10)] := by
  show natDigitsAux (n + 1) n = _
  rw [show natDigitsAux (n + 1) n = natDigitsAux n (n / 10) ++ [digitChar (n % 10)] by
    simp [natDigitsAux, Nat.not_lt.2 h]]
  rw [natDigitsAux_fuel n (n / 10 + 1) (n / 10) (by omega) (by omega)]
  rfl

theorem natDigits_all_digit (n : Nat) : ∀ c ∈ natDigits n, c.isDigit = true := by
  induction n using Nat.strong_induction_on with
  | _ n ih =>
    by_cases h : n < 10
    · rw [natDigits_lt10 h]
      intro c hc
      rw [List.mem_singleton] at hc
      rw [hc]; exact digitChar_isDigit h
    · rw [natDigits_ge10 (by omega)]
      intro c hc
      rcases List.mem_append.1 hc with h1 | h1
      · exact ih (n / 10) (by omega) c h1
      · rw [List.mem_singleton] at h1
        rw [h1]; exact digitChar_isDigit (Nat.mod_lt n (by omega))

theorem natDigits_ne_nil (n : Nat) : natDigits n ≠ [] := by
  by_cases h : n < 10
  · rw [natDigits_lt10 h]; simp
  · rw [natDigits_ge10 (by omega)]; simp

theorem natDigits_head? (n : Nat) :
    ∃ d ds, natDigits n = d :: ds ∧ d.isDigit = true := by
  cases h : natDigits n with
  | nil => exact absurd h (natDigits_ne_nil n)
  | cons d ds =>
    exact ⟨d, ds, rfl, natDigits_all_digit n d (by rw [h]; simp)⟩

theorem digitsVal_append_singleton (l : List Char) (c : Char) :
    digitsVal (l ++ [c]) = 10 * digitsVal l + (c.toNat - 48) := by
  unfold digitsVal
  rw [List.foldl_append]
  rfl

theorem digitsVal_natDigits (n : Nat) : digitsVal (natDigits n) = n := by
  induction n using Nat.strong_induction_on with
  | _ n ih =>
    by_cases h : n < 10
    · rw [natDigits_lt10 h]
      show 10 * 0 + ((digitChar n).toNat - 48) = n
      rw [digitChar_toNat h]; omega
    · rw [natDigits_ge10 (by omega), digitsVal_append_singleton,
        ih (n / 10) (by omega), digitChar_toNat (Nat.mod_lt n (by omega))]
      omega

theorem stripPlusSign_cons {d : Char} {ds : List Char} (h : d ≠ '+') :
    stripPlusSign (d :: ds) = d :: ds := by
  unfold stripPlusSign
  split
  · next heq => rw [List.cons.injEq] at heq; exact absurd heq.1 h
  · rfl

theorem parseU32_natDigits {n : Nat} (h : n < 2 ^ 32) : parseU32 (natDigits n) = some n := by
  obtain ⟨d, ds, hd, hdig⟩ := natDigits_head? n
  unfold parseU32
  rw [hd, stripPlusSign_cons (isDigit_ne hdig (by decide)), ← hd]
  rw [if_neg (natDigits_ne_nil n)]
  rw [if_pos (by rw [List.all_eq_true]; exact natDigits_all_digit n)]
  rw [digitsVal_natDigits, if_pos h]

theorem parseU32_lt {s : List Char} {n : Nat} (h : parseU32 s = some n) : n < 2 ^ 32 := by
  simp only [parseU32] at h
  split at h
  · cases h
  · split at h
    · split at h
      · next hlt => rw [Option.some.injEq] at h; omega
      · cases h
    · cases h

theorem isDigit_not_ws {c : Char} (h : c.isDigit = true) : c.isWhitespace = false := by
  cases hw : c.isWhitespace with
  | false => rfl
  | true =>
    exfalso
    have hw' := hw
    simp only [Char.isWhitespace, Bool.or_eq_true, decide_eq_true_eq] at hw'
    rcases hw' with ((h1 | h1) | h1) | h1 <;> (subst h1; exact absurd h (by decide))

/-! ## Lemmas: whitespace tokenization -/

theorem splitWsAux_token {tok : List Char} (htok : ∀ c ∈ tok, c.isWhitespace = false) :
    ∀ (l acc : List Char), splitWsAux (tok ++ l) acc = splitWsAux l (tok.reverse ++ acc) := by
  induction tok with
  | nil => intro l acc; simp
  | cons c cs ih =>
    intro l acc
    have hc : c.isWhitespace = false := htok c (by simp)
    rw [List.cons_append]
    show splitWsAux (c :: (cs ++ l)) acc = _
    simp only [splitWsAux, hc, Bool.false_eq_true, if_false]
    rw [ih (fun x hx => htok x (by simp [hx])) l (c :: acc)]
    simp

theorem splitWsAux_space {c : Char} (hc : c.isWhitespace = true) (l acc : List Char) :
    splitWsAux (c :: l) acc =
      if acc = [] then splitWsAux l [] else acc.reverse :: splitWsAux l [] := by
  simp [splitWsAux, hc]

theorem splitWs_token_space {tok : List Char} (hne : tok ≠ [])
    (htok : ∀ c ∈ tok, c.isWhitespace = false) {c : Char} (hc : c.isWhitespace = true)
    (l : List Char) : splitWs (tok ++ c :: l) = tok :: splitWs l := by
  unfold splitWs
  rw [splitWsAux_token htok, splitWsAux_space hc]
  rw [List.append_nil, if_neg (by simpa using hne), List.reverse_reverse]

theorem splitWs_space {c : Char} (hc : c.isWhitespace = true) (l : List Char) :
    splitWs (c :: l) = splitWs l := by
  unfold splitWs
  rw [splitWsAux_space hc, if_pos rfl]

theorem splitWs_single {tok : List Char} (hne : tok ≠ [])
    (htok : ∀ c ∈ tok, c.isWhitespace = false) : splitWs tok = [tok] := by
  have h1 : splitWs (tok ++ []) = [tok] := by
    unfold splitWs
    rw [splitWsAux_token htok]
    simp only [splitWsAux]
    rw [List.append_nil, if_neg (by simpa using hne), List.reverse_reverse]
  simpa using h1

theorem splitWsAux_mem :
    ∀ (l acc : List Char), (∀ c ∈ acc, c.isWhitespace = false) →
      ∀ t ∈ splitWsAux l acc, t ≠ [] ∧ ∀ c ∈ t, c.isWhitespace = false := by
  intro l
  induction l with
  | nil =>
    intro acc hacc t ht
    unfold splitWsAux at ht
    split at ht
    · cases ht
    · next hne =>
      rw [List.mem_singleton] at ht
      subst ht
      exact ⟨by simpa using hne, fun c hc => hacc c (by simpa using hc)⟩
  | cons x xs ih =>
    intro acc hacc t ht
    by_cases hx : x.isWhitespace = true
    · rw [splitWsAux_space hx] at ht
      split at ht
      · exact ih [] (by simp) t ht
      · next hne =>
        rcases List.mem_cons.1 ht with h1 | h1
        · subst h1
          exact ⟨by simpa using hne, fun c hc => hacc c (by simpa using hc)⟩
        · exact ih [] (by simp) t h1
    · have hx' : x.isWhitespace = false := by simpa using hx
      unfold splitWsAux at ht
      rw [hx'] at ht
      simp only [Bool.false_eq_true, if_false] at ht
      refine ih (x :: acc) ?_ t ht
      intro c hc
      rcases List.mem_cons.1 hc with h1 | h1
      · subst h1; exact hx'
      · exact hacc c h1

theorem splitWs_mem {l : List Char} :
    ∀ t ∈ splitWs l, t ≠ [] ∧ ∀ c ∈ t, c.isWhitespace = false :=
  splitWsAux_mem l [] (by simp)

/-! ## Lemmas: substring search -/

theorem isPrefixL_self_append (a b : List Char) : isPrefixL a (a ++ b) = true := by
  unfold isPrefixL
  rw [List.take_left]
  simp

theorem splitFirst?_sep_self {sep : List Char} (h : sep ≠ []) (b : List Char) :
    splitFirst? sep (sep ++ b) = some ([], b) := by
  cases sep with
  | nil => exact absurd rfl h
  | cons s ss =>
    rw [List.cons_append]
    show (if isPrefixL (s :: ss) (s :: (ss ++ b)) then
        some (([] : List Char), (s :: (ss ++ b)).drop (s :: ss).length)
      else (splitFirst? (s :: ss) (ss ++ b)).map fun p => (s :: p.1, p.2)) = _
    rw [if_pos (by simpa using isPrefixL_self_append (s :: ss) b)]
    rw [show s :: (ss ++ b) = (s :: ss) ++ b from rfl, List.drop_left]

theorem splitFirst?_cons_nomatch {sep : List Char} {c : Char} {cs : List Char}
    (h : isPrefixL sep (c :: cs) = false) :
    splitFirst? sep (c :: cs) = (splitFirst? sep cs).map fun p => (c :: p.1, p.2) := by
  show (if isPrefixL sep (c :: cs) then some (([] : List Char), (c :: cs).drop sep.length)
    else (splitFirst? sep cs).map fun p => (c :: p.1, p.2)) = _
  rw [h]
  simp

theorem isPrefixL_sound {sep l : List Char} (h : isPrefixL sep l = true) :
    l = sep ++ l.drop sep.length := by
  unfold isPrefixL at h
  rw [decide_eq_true_eq] at h
  conv_lhs => rw [← List.take_append_drop sep.length l, h]

theorem splitFirst?_sound {sep : List Char} :
    ∀ {l a b : List Char}, splitFirst? sep l = some (a, b) → l = a ++ (sep ++ b) := by
  intro l
  induction l with
  | nil =>
    intro a b h
    unfold splitFirst? at h
    split at h
    · next hsep =>
      rw [Option.some.injEq, Prod.mk.injEq] at h
      rw [hsep, ← h.1, ← h.2]
      rfl
    · cases h
  | cons c cs ih =>
    intro a b h
    by_cases hp : isPrefixL sep (c :: cs) = true
    · have hform := isPrefixL_sound hp
      unfold splitFirst? at h
      rw [if_pos hp] at h
      rw [Option.some.injEq, Prod.mk.injEq] at h
      rw [← h.1, ← h.2, List.nil_append]
      exact hform
    · rw [splitFirst?_cons_nomatch (by simpa using hp)] at h
      rcases Option.map_eq_some'.1 h with ⟨p, hp1, hp2⟩
      rw [Prod.mk.injEq] at hp2
      obtain ⟨h1, h2⟩ := hp2
      subst h2
      have hcs : cs = p.1 ++ (sep ++ p.2) := ih (by rw [Prod.mk.eta]; exact hp1)
      rw [← h1, hcs]
      simp

theorem take_len_cons_append {sep : List Char} (hsep : sep ≠ []) (c : Char)
    (cs X : List Char) :
    (c :: (cs ++ (sep ++ X))).take sep.length = c :: (cs ++ sep).take (sep.length - 1) := by
  cases sep with
  | nil => exact absurd rfl hsep
  | cons s ss =>
    show (c :: (cs ++ (s :: ss ++ X))).take (ss.length + 1) = _
    rw [List.take_succ_cons]
    rw [← List.append_assoc, List.take_append_of_le_length (by simp; omega)]
    rfl

theorem splitFirst?_stable {sep : List Char} (hsep : sep ≠ []) :
    ∀ {a b : List Char} (b' : List Char), splitFirst? sep (a ++ (sep ++ b)) = some (a, b) →
      splitFirst? sep (a ++ (sep ++ b')) = some (a, b') := by
  intro a
  induction a with
  | nil =>
    intro b b' _
    simpa using splitFirst?_sep_self hsep b'
  | cons c cs ih =>
    intro b b' h
    rw [List.cons_append] at h ⊢
    have hp : isPrefixL sep (c :: (cs ++ (sep ++ b))) = false := by
      cases hp0 : isPrefixL sep (c :: (cs ++ (sep ++ b))) with
      | false => rfl
      | true =>
        exfalso
        rw [show splitFirst? sep (c :: (cs ++ (sep ++ b))) =
            some ([], (c :: (cs ++ (sep ++ b))).drop sep.length) from by
          unfold splitFirst?; rw [if_pos hp0]] at h
        rw [Option.some.injEq, Prod.mk.injEq] at h
        exact List.cons_ne_nil c cs h.1.symm
    have hp' : isPrefixL sep (c :: (cs ++ (sep ++ b'))) = false := by
      unfold isPrefixL at hp ⊢
      rw [take_len_cons_append hsep c cs b']
      rw [take_len_cons_append hsep c cs b] at hp
      exact hp
    rw [splitFirst?_cons_nomatch hp']
    rw [splitFirst?_cons_nomatch hp] at h
    rcases Option.map_eq_some'.1 h with ⟨p, hp1, hp2⟩
    obtain ⟨p1, p2⟩ := p
    rw [Prod.mk.injEq, List.cons.injEq] at hp2
    obtain ⟨⟨-, hcs⟩, hb⟩ := hp2
    subst hcs; subst hb
    rw [ih b' hp1]
    rfl

/-! ## Lemmas: last characters -/

theorem getLast?_mem' : ∀ {l : List Char} {c : Char}, l.getLast? = some c → c ∈ l := by
  intro l
  induction l with
  | nil => intro c h; cases h
  | cons x xs ih =>
    intro c h
    cases xs with
    | nil =>
      rw [List.getLast?_singleton, Option.some.injEq] at h
      rw [h]; simp
    | cons y ys =>
      rw [List.getLast?_cons_cons] at h
      exact List.mem_cons_of_mem x (ih h)

theorem getLast?_cons_of_ne_nil {c : Char} {t : List Char} (h : t ≠ []) :
    (c :: t).getLast? = t.getLast? := by
  cases t with
  | nil => exact absurd rfl h
  | cons y ys => exact List.getLast?_cons_cons

theorem getLast?_append_singleton (l : List Char) (c : Char) :
    (l ++ [c]).getLast? = some c := by
  rw [List.getLast?_append_of_ne_nil l (by simp)]
  rfl

/-- Extension when the separator is `...`: a string with no occurrence of the
delimiter and not ending in a dot, followed by `...`, splits exactly at the
boundary. -/
theorem splitFirst?_dots_ext :
    ∀ {l : List Char}, splitFirst? (("...").toList) l = none → l.getLast? ≠ some '.' →
      splitFirst? (("...").toList) (l ++ ("...").toList) = some (l, []) := by
  intro l
  induction l with
  | nil =>
    intro _ _
    simpa using splitFirst?_sep_self (by decide) []
  | cons c cs ih =>
    intro hnone hlast
    have hparts : isPrefixL (("...").toList) (c :: cs) = false ∧
        splitFirst? (("...").toList) cs = none := by
      unfold splitFirst? at hnone
      split at hnone
      · cases hnone
      · next hp =>
        refine ⟨by simpa using hp, ?_⟩
        cases hm : splitFirst? (("...").toList) cs with
        | none => rfl
        | some p => rw [hm] at hnone; cases hnone
    rw [List.cons_append]
    have hpre : isPrefixL (("...").toList) (c :: (cs ++ ("...").toList)) = false := by
      match cs, hparts.1 with
      | [], h0 =>
        have hc : c ≠ '.' := fun e => hlast (by rw [e]; rfl)
        simp only [List.nil_append]
        unfold isPrefixL
        rw [decide_eq_false_iff_not]
        intro he
        rw [show (("...").toList).length = 3 from rfl] at he
        have : c = '.' := by
          have := congrArg (fun t => t.head?) he
          simpa using this
        exact hc this
      | [d], h0 =>
        have hd : d ≠ '.' := fun e => hlast (by rw [List.getLast?_cons_cons, e]; rfl)
        unfold isPrefixL
        rw [decide_eq_false_iff_not]
        intro he
        rw [show (("...").toList).length = 3 from rfl] at he
        have : d = '.' := by
          have := congrArg (fun t => t.getD 1 ' ') he
          simpa using this
        exact hd this
      | d :: e :: cs', h0 =>
        unfold isPrefixL at h0 ⊢
        rw [show c :: (d :: e :: cs' ++ ("...").toList) =
          (c :: d :: e :: cs') ++ ("...").toList from rfl]
        rw [List.take_append_of_le_length (by simp)]
        exact h0
    rw [splitFirst?_cons_nomatch hpre]
    have hlast' : cs.getLast? ≠ some '.' := by
      cases cs with
      | nil => simp
      | cons y ys =>
        rw [getLast?_cons_of_ne_nil (List.cons_ne_nil y ys)] at hlast
        exact hlast
    rw [ih hparts.2 hlast']
    rfl

/-! ## Lemmas: suffix stripping and percent trimming -/

theorem stripSuffix?_append (suf a : List Char) : stripSuffix? suf (a ++ suf) = some a := by
  unfold stripSuffix?
  have hlen : (a ++ suf).length - suf.length = a.length := by simp
  rw [if_pos ⟨by simp, by rw [hlen]; exact List.drop_left a suf⟩, hlen, List.take_left]

theorem trimRightPercent_of_getLast {l : List Char} {c : Char} (h : l.getLast? = some c)
    (hc : c ≠ '%') : trimRightPercent l = l := by
  unfold trimRightPercent
  cases hr : l.reverse with
  | nil =>
    rw [List.reverse_eq_nil_iff] at hr
    rw [hr]; rfl
  | cons x xs =>
    have hx : x = c := by
      have h1 : l.reverse.head? = some c := by rw [List.head?_reverse]; exact h
      rw [hr] at h1
      simpa using h1
    rw [List.dropWhile_cons, if_neg (by simp [hx, hc]), ← hr, List.reverse_reverse]

theorem trimRightPercent_append_percent {l : List Char} {c : Char}
    (h : l.getLast? = some c) (hc : c ≠ '%') : trimRightPercent (l ++ ['%']) = l := by
  unfold trimRightPercent
  rw [List.reverse_append]
  show (('%' :: l.reverse).dropWhile fun c => decide (c = '%')).reverse = l
  rw [List.dropWhile_cons, if_pos (by simp)]
  cases hr : l.reverse with
  | nil =>
    rw [List.reverse_eq_nil_iff] at hr
    rw [hr]; rfl
  | cons x xs =>
    have hx : x = c := by
      have h1 : l.reverse.head? = some c := by rw [List.head?_reverse]; exact h
      rw [hr] at h1
      simpa using h1
    rw [List.dropWhile_cons, if_neg (by simp [hx, hc]), ← hr, List.reverse_reverse]

/-! ## Lemmas: takeWhile / dropWhile chunks -/

theorem takeWhile_append_all {p : Char → Bool} :
    ∀ {a : List Char}, (∀ c ∈ a, p c = true) → ∀ (b : List Char),
      (a ++ b).takeWhile p = a ++ b.takeWhile p := by
  intro a
  induction a with
  | nil => intro _ b; simp
  | cons x xs ih =>
    intro h b
    rw [List.cons_append, List.takeWhile_cons, if_pos (h x (by simp)), List.cons_append,
      ih (fun c hc => h c (by simp [hc])) b]

theorem dropWhile_append_all {p : Char → Bool} :
    ∀ {a : List Char}, (∀ c ∈ a, p c = true) → ∀ (b : List Char),
      (a ++ b).dropWhile p = b.dropWhile p := by
  intro a
  induction a with
  | nil => intro _ b; simp
  | cons x xs ih =>
    intro h b
    rw [List.cons_append, List.dropWhile_cons, if_pos (h x (by simp))]
    exact ih (fun c hc => h c (by simp [hc])) b

theorem takeWhile_all_self {p : Char → Bool} {l : List Char} (h : ∀ c ∈ l, p c = true) :
    l.takeWhile p = l := by
  have h1 := takeWhile_append_all h []
  simpa using h1

theorem dropWhile_all_nil {p : Char → Bool} {l : List Char} (h : ∀ c ∈ l, p c = true) :
    l.dropWhile p = [] := by
  have h1 := dropWhile_append_all h []
  simpa using h1

theorem dropWhile_head_false {p : Char → Bool} :
    ∀ {l : List Char} {c : Char} {cs : List Char}, l.dropWhile p = c :: cs → p c = false := by
  intro l
  induction l with
  | nil => intro c cs h; cases h
  | cons x xs ih =>
    intro c cs h
    rw [List.dropWhile_cons] at h
    split at h
    · exact ih h
    · next hx =>
      rw [List.cons.injEq] at h
      rw [← h.1]
      simpa using hx

/-! ## Lemmas: the float grammar rejects a trailing asterisk -/

theorem parseMantissa?_ends_star {m : List Char} (h : m.getLast? = some '*') :
    parseMantissa? m = none := by
  have hstar : ('*').isDigit = false := by decide
  unfold parseMantissa?
  cases hd : m.dropWhile fun c => decide (c ≠ '.') with
  | nil =>
    have hm : m.takeWhile (fun c => decide (c ≠ '.')) = m := by
      conv_rhs => rw [← List.takeWhile_append_dropWhile (fun c => decide (c ≠ '.')) m]
      rw [hd, List.append_nil]
    rw [hm]
    dsimp only
    rw [if_neg]
    rintro ⟨-, hall⟩
    rw [List.all_eq_true] at hall
    rw [hall '*' (getLast?_mem' h)] at hstar
    cases hstar
  | cons d fp =>
    have hm : m = m.takeWhile (fun c => decide (c ≠ '.')) ++ (d :: fp) := by
      conv_lhs => rw [← List.takeWhile_append_dropWhile (fun c => decide (c ≠ '.')) m]
      rw [hd]
    cases hfp : fp with
    | nil =>
      exfalso
      have hdval : d = '.' := by
        have h1 := dropWhile_head_false hd
        simpa using h1
      rw [hm, hfp, hdval] at h
      rw [getLast?_append_singleton] at h
      cases h
    | cons f1 fs =>
      dsimp only
      rw [if_neg]
      rintro ⟨-, -, hall⟩
      rw [hm, hfp] at h
      rw [List.getLast?_append_of_ne_nil _ (by simp), List.getLast?_cons_cons] at h
      rw [List.all_eq_true] at hall
      rw [hall '*' (getLast?_mem' h)] at hstar
      cases hstar

theorem parseExpPart?_ends_star {s : List Char} (h : s.getLast? = some '*') :
    parseExpPart? s = none := by
  have hstar : ('*').isDigit = false := by decide
  unfold parseExpPart?
  split
  · next t =>
    cases t with
    | nil => cases h
    | cons x xs =>
      rw [List.getLast?_cons_cons] at h
      rw [if_neg]
      rintro ⟨-, hall⟩
      rw [List.all_eq_true] at hall
      rw [hall '*' (getLast?_mem' h)] at hstar
      cases hstar
  · next t =>
    cases t with
    | nil => cases h
    | cons x xs =>
      rw [List.getLast?_cons_cons] at h
      rw [if_neg]
      rintro ⟨-, hall⟩
      rw [List.all_eq_true] at hall
      rw [hall '*' (getLast?_mem' h)] at hstar
      cases hstar
  · rw [if_neg]
    rintro ⟨-, hall⟩
    rw [List.all_eq_true] at hall
    rw [hall '*' (getLast?_mem' h)] at hstar
    cases hstar

theorem parseUnsignedFloat?_ends_star {s : List Char} (h : s.getLast? = some '*') :
    parseUnsignedFloat? s = none := by
  unfold parseUnsignedFloat?
  cases hd : s.dropWhile fun c => decide (c ≠ 'e' ∧ c ≠ 'E') with
  | nil =>
    have hm : s.takeWhile (fun c => decide (c ≠ 'e' ∧ c ≠ 'E')) = s := by
      conv_rhs => rw [← List.takeWhile_append_dropWhile (fun c => decide (c ≠ 'e' ∧ c ≠ 'E')) s]
      rw [hd, List.append_nil]
    rw [hm]
    exact parseMantissa?_ends_star h
  | cons e1 ex =>
    have hs : s = s.takeWhile (fun c => decide (c ≠ 'e' ∧ c ≠ 'E')) ++ (e1 :: ex) := by
      conv_lhs => rw [← List.takeWhile_append_dropWhile (fun c => decide (c ≠ 'e' ∧ c ≠ 'E')) s]
      rw [hd]
    cases hex : ex with
    | nil =>
      exfalso
      have he1 : e1 = 'e' ∨ e1 = 'E' := by
        have h1 := dropWhile_head_false hd
        rw [decide_eq_false_iff_not] at h1
        by_cases he : e1 = 'e'
        · exact Or.inl he
        · exact Or.inr (by tauto)
      rw [hs, hex] at h
      rw [getLast?_append_singleton] at h
      rw [Option.some.injEq] at h
      rcases he1 with he | he <;> (rw [he] at h; cases h)
    | cons x xs =>
      have hexlast : (x :: xs).getLast? = some '*' := by
        rw [hs, hex] at h
        rw [List.getLast?_append_of_ne_nil _ (by simp), List.getLast?_cons_cons] at h
        exact h
      dsimp only
      rw [parseExpPart?_ends_star hexlast]
      cases parseMantissa? (s.takeWhile fun c => decide (c ≠ 'e' ∧ c ≠ 'E')) <;> simp

theorem parseFloat?_ends_star {s : List Char} (h : s.getLast? = some '*') :
    parseFloat? s = none := by
  unfold parseFloat?
  split
  · next t =>
    cases t with
    | nil => cases h
    | cons x xs =>
      rw [List.getLast?_cons_cons] at h
      exact parseUnsignedFloat?_ends_star h
  · next t =>
    cases t with
    | nil => cases h
    | cons x xs =>
      rw [List.getLast?_cons_cons] at h
      rw [parseUnsignedFloat?_ends_star h]
      rfl
  · exact parseUnsignedFloat?_ends_star h

/-! ## Lemmas: parsing back a `{:.2}` rendering -/

theorem twoFracDigits_all_digit {m : Nat} : ∀ c ∈ twoFracDigits m, c.isDigit = true := by
  intro c hc
  unfold twoFracDigits at hc
  rcases List.mem_append.1 hc with h1 | h1
  · split at h1
    · rw [List.mem_singleton] at h1
      rw [h1]; decide
    · cases h1
  · exact natDigits_all_digit m c h1

theorem twoFracDigits_length {m : Nat} (hm : m < 100) : (twoFracDigits m).length = 2 := by
  unfold twoFracDigits
  by_cases h : m < 10
  · rw [if_pos h, natDigits_lt10 h]; rfl
  · rw [if_neg h, natDigits_ge10 (by omega), natDigits_lt10 (by omega)]
    rfl

theorem digitsVal_twoFracDigits {m : Nat} (hm : m < 100) :
    digitsVal (twoFracDigits m) = m := by
  unfold twoFracDigits
  by_cases h : m < 10
  · rw [if_pos h, natDigits_lt10 h]
    show digitsVal (['0'] ++ [digitChar m]) = m
    rw [digitsVal_append_singleton, digitChar_toNat h]
    have h0 : digitsVal ['0'] = 0 := by decide
    omega
  · rw [if_neg h, List.nil_append, digitsVal_natDigits]

theorem parseFloat?_cons_other {d : Char} {t : List Char} (h1 : d ≠ '+') (h2 : d ≠ '-') :
    parseFloat? (d :: t) = parseUnsignedFloat? (d :: t) := by
  unfold parseFloat?
  split
  · next heq => rw [List.cons.injEq] at heq; exact absurd heq.1 h1
  · next heq => rw [List.cons.injEq] at heq; exact absurd heq.1 h2
  · rfl

theorem parseFloat?_cons_minus (t : List Char) :
    parseFloat? ('-' :: t) = (parseUnsignedFloat? t).map fun q => -q := by
  unfold parseFloat?
  split
  · next heq => rw [List.cons.injEq] at heq; exact absurd heq.1 (by decide)
  · next heq =>
    rw [List.cons.injEq] at heq
    rw [heq.2]
  · next h1 h2 => exact absurd rfl (h2 t)

theorem parseUnsignedFloat?_digits_dot (a m : Nat) (hm : m < 100) :
    parseUnsignedFloat? (natDigits a ++ '.' :: twoFracDigits m) =
      some ((a : ℚ) + (m : ℚ) / 100) := by
  have hallA : ∀ c ∈ natDigits a, c.isDigit = true := natDigits_all_digit a
  have hallM : ∀ c ∈ twoFracDigits m, c.isDigit = true := twoFracDigits_all_digit
  have hpe : ∀ c ∈ natDigits a ++ '.' :: twoFracDigits m,
      (decide (c ≠ 'e' ∧ c ≠ 'E')) = true := by
    intro c hc
    rw [decide_eq_true_eq]
    rcases List.mem_append.1 hc with h1 | h1
    · have hd := hallA c h1
      exact ⟨isDigit_ne hd (by decide), isDigit_ne hd (by decide)⟩
    · rcases List.mem_cons.1 h1 with h2 | h2
      · subst h2; exact ⟨by decide, by decide⟩
      · have hd := hallM c h2
        exact ⟨isDigit_ne hd (by decide), isDigit_ne hd (by decide)⟩
  unfold parseUnsignedFloat?
  rw [dropWhile_all_nil hpe, takeWhile_all_self hpe]
  dsimp only
  unfold parseMantissa?
  have hdotp : ∀ c ∈ natDigits a, (decide (c ≠ '.')) = true := fun c hc => by
    rw [decide_eq_true_eq]; exact isDigit_ne (hallA c hc) (by decide)
  rw [dropWhile_append_all hdotp, takeWhile_append_all hdotp]
  rw [List.dropWhile_cons, if_neg (by simp), List.takeWhile_cons, if_neg (by simp)]
  rw [List.append_nil]
  dsimp only
  rw [if_pos ⟨Or.inl (natDigits_ne_nil a),
    List.all_eq_true.2 hallA, List.all_eq_true.2 hallM⟩]
  rw [digitsVal_natDigits, digitsVal_twoFracDigits hm, twoFracDigits_length hm]
  norm_num

theorem nat_div_mod_q (a : Nat) :
    ((a / 100 : Nat) : ℚ) + ((a % 100 : Nat) : ℚ) / 100 = (a : ℚ) / 100 := by
  have h : (100 : ℚ) * ((a / 100 : Nat) : ℚ) + ((a % 100 : Nat) : ℚ) = (a : ℚ) := by
    exact_mod_cast congrArg (fun n : Nat => (n : ℚ)) (Nat.div_add_mod a 100)
  field_simp
  linarith

theorem parseFloat?_fmt2 (q : ℚ) : parseFloat? (fmt2 q) = some (roundTo2 q) := by
  unfold fmt2 roundTo2
  dsimp only
  by_cases hneg : round (100 * q) < 0
  · rw [if_pos hneg]
    rw [List.singleton_append, List.cons_append]
    rw [parseFloat?_cons_minus]
    rw [parseUnsignedFloat?_digits_dot _ _ (Nat.mod_lt _ (by omega))]
    rw [Option.map_some']
    congr 1
    rw [nat_div_mod_q]
    have habs : (((round (100 * q)).natAbs : ℚ)) = -(((round (100 * q)) : ℤ) : ℚ) := by
      rw [show (((round (100 * q)).natAbs : ℚ)) = ((((round (100 * q)).natAbs : ℤ)) : ℚ) by
        exact (Int.cast_natCast _).symm]
      rw [Int.ofNat_natAbs_of_nonpos (by omega)]
      push_cast; ring
    rw [habs]
    ring
  · rw [if_neg hneg]
    rw [List.nil_append]
    obtain ⟨d, ds, hd, hdig⟩ := natDigits_head? ((round (100 * q)).natAbs / 100)
    rw [hd, List.cons_append]
    rw [parseFloat?_cons_other (isDigit_ne hdig (by decide)) (isDigit_ne hdig (by decide))]
    rw [← List.cons_append, ← hd]
    rw [parseUnsignedFloat?_digits_dot _ _ (Nat.mod_lt _ (by omega))]
    congr 1
    rw [nat_div_mod_q]
    congr 1
    rw [show (((round (100 * q)).natAbs : ℚ)) = ((((round (100 * q)).natAbs : ℤ)) : ℚ) by
      exact (Int.cast_natCast _).symm]
    rw [Int.natAbs_of_nonneg (by omega)]

/-! ## Lemmas: anatomy of a successful or failed sequence-line parse -/

theorem parse_ok_anatomy {line : List Char} {s : Sequence}
    (h : parse_sequence_line line = .ok s) :
    ¬ (splitWs line).length < 3 ∧
    (∃ lenD, stripSuffix? (("aa,").toList) ((splitWs line).getD 1 []) = some lenD ∧
      parseU32 lenD = some s.length) ∧
    s.id = firstSegment (("...").toList)
      (((splitWs line).getD 2 []).dropWhile fun c => decide (c = '>')) ∧
    s.is_representative = decide (line.getLast? = some '*') ∧
    ((splitFirst? ((" at ").toList) line = none ∧ s.identity = none) ∨
     (∃ p q, splitFirst? ((" at ").toList) line = some p ∧
       parseFloat? (trimRightPercent p.2) = some q ∧ s.identity = some q)) := by
  simp only [parse_sequence_line] at h
  split at h
  · cases h
  · next h3 =>
    split at h
    · cases h
    · next lenD hstrip =>
      split at h
      · cases h
      · next len hlen =>
        split at h
        · next hat =>
          rw [Except.ok.injEq] at h
          subst h
          exact ⟨h3, ⟨lenD, hstrip, hlen⟩, rfl, rfl, Or.inl ⟨hat, rfl⟩⟩
        · next p hat =>
          split at h
          · cases h
          · next q hq =>
            rw [Except.ok.injEq] at h
            subst h
            exact ⟨h3, ⟨lenD, hstrip, hlen⟩, rfl, rfl, Or.inr ⟨p, q, hat, hq, rfl⟩⟩

theorem parse_error_short {line : List Char} (h : (splitWs line).length < 3) :
    parse_sequence_line line =
      .error (.readRecord (("Invalid sequence line: ").toList ++ line)) := by
  simp only [parse_sequence_line]
  rw [if_pos h]

theorem parse_error_suffix {line : List Char} (h3 : ¬ (splitWs line).length < 3)
    (h : stripSuffix? (("aa,").toList) ((splitWs line).getD 1 []) = none) :
    parse_sequence_line line =
      .error (.readRecord (("Invalid length format: ").toList ++ line)) := by
  simp only [parse_sequence_line]
  rw [if_neg h3, h]

theorem parse_error_int {line : List Char} {lenD : List Char}
    (h3 : ¬ (splitWs line).length < 3)
    (h : stripSuffix? (("aa,").toList) ((splitWs line).getD 1 []) = some lenD)
    (hu : parseU32 lenD = none) :
    parse_sequence_line line = .error .intErr := by
  simp only [parse_sequence_line]
  rw [if_neg h3, h]
  dsimp only
  rw [hu]

theorem parse_error_cases {line : List Char} {e : ErrorKind}
    (h : parse_sequence_line line = .error e) :
    e = .readRecord (("Invalid sequence line: ").toList ++ line) ∨
    e = .readRecord (("Invalid length format: ").toList ++ line) ∨
    e = .intErr ∨ e = .floatErr := by
  simp only [parse_sequence_line] at h
  split at h
  · rw [Except.error.injEq] at h
    exact Or.inl h.symm
  · split at h
    · rw [Except.error.injEq] at h
      exact Or.inr (Or.inl h.symm)
    · split at h
      · rw [Except.error.injEq] at h
        exact Or.inr (Or.inr (Or.inl h.symm))
      · split at h
        · cases h
        · split at h
          · rw [Except.error.injEq] at h
            exact Or.inr (Or.inr (Or.inr h.symm))
          · cases h

/-! ## Lemmas: invariants of parsed sequences -/

/-- Shape invariants every `Sequence` produced by a successful
`parse_sequence_line` satisfies; they are what the writer round-trip needs. -/
def GoodSeq (s : Sequence) : Prop :=
  (∀ c ∈ s.id, c.isWhitespace = false) ∧
  s.id.head? ≠ some '>' ∧
  (splitFirst? (("...").toList) (s.id ++ ("...").toList) = some (s.id, []) ∨
   splitFirst? (("...").toList) s.id = none) ∧
  s.length < 2 ^ 32 ∧
  (s.identity.isSome = true → s.is_representative = false)

theorem getD_mem_of_lt {l : List (List Char)} {i : Nat} (h : i < l.length) :
    l.getD i [] ∈ l := by
  rw [List.getD_eq_getElem l [] h]
  exact List.getElem_mem h

theorem mem_of_dropWhile {p : Char → Bool} {l : List Char} {c : Char}
    (h : c ∈ l.dropWhile p) : c ∈ l :=
  (List.dropWhile_suffix p).subset h

theorem parse_ok_good {line : List Char} {s : Sequence}
    (h : parse_sequence_line line = .ok s) : GoodSeq s := by
  obtain ⟨h3, ⟨lenD, hstrip, hlen⟩, hid, hrep, hident⟩ := parse_ok_anatomy h
  have htokmem : (splitWs line).getD 2 [] ∈ splitWs line := getD_mem_of_lt (by omega)
  have htokws : ∀ c ∈ (splitWs line).getD 2 [], c.isWhitespace = false :=
    (splitWs_mem _ htokmem).2
  have htws : ∀ c ∈ ((splitWs line).getD 2 []).dropWhile (fun c => decide (c = '>')),
      c.isWhitespace = false := fun c hc => htokws c (mem_of_dropWhile hc)
  have hthead : (((splitWs line).getD 2 []).dropWhile (fun c => decide (c = '>'))).head? ≠
      some '>' := by
    cases hc : ((splitWs line).getD 2 []).dropWhile (fun c => decide (c = '>')) with
    | nil => simp
    | cons x xs =>
      have hx := dropWhile_head_false hc
      rw [decide_eq_false_iff_not] at hx
      simp [hx]
  have hrepgood : s.identity.isSome = true → s.is_representative = false := by
    rcases hident with ⟨-, hnone⟩ | ⟨p, q, hat, hq, hsome⟩
    · rw [hnone]; intro h'; cases h'
    · intro _
      by_cases hstar : line.getLast? = some '*'
      · exfalso
        have hsound := splitFirst?_sound hat
        cases hp2 : p.2 with
        | nil =>
          rw [hsound, hp2, List.append_nil] at hstar
          rw [List.getLast?_append_of_ne_nil _ (by decide)] at hstar
          rw [show ((" at ").toList).getLast? = some ' ' from rfl] at hstar
          rw [Option.some.injEq] at hstar
          cases hstar
        | cons x xs =>
          rw [hsound, hp2] at hstar
          rw [List.getLast?_append_of_ne_nil _ (by simp),
            List.getLast?_append_of_ne_nil _ (by simp)] at hstar
          rw [← hp2] at hstar
          rw [trimRightPercent_of_getLast hstar (by decide)] at hq
          rw [parseFloat?_ends_star hstar] at hq
          cases hq
      · rw [hrep]
        simp [hstar]
  cases hsf : splitFirst? (("...").toList)
      (((splitWs line).getD 2 []).dropWhile fun c => decide (c = '>')) with
  | some p =>
    have hidp : s.id = p.1 := by
      rw [hid]; unfold firstSegment; rw [hsf]
    have hsound := splitFirst?_sound hsf
    refine ⟨?_, ?_, ?_, parseU32_lt hlen, hrepgood⟩
    · intro c hc
      rw [hidp] at hc
      exact htws c (by rw [hsound]; exact List.mem_append_left _ hc)
    · rw [hidp]
      cases hp1 : p.1 with
      | nil => simp
      | cons x xs =>
        rw [hp1, List.cons_append] at hsound
        rw [hsound] at hthead
        simpa using hthead
    · left
      rw [hsound] at hsf
      have hsf' : splitFirst? (("...").toList)
          (p.1 ++ ((("...").toList) ++ p.2)) = some (p.1, p.2) := by
        rw [← Prod.mk.eta (p := p)] at hsf
        exact hsf
      have := splitFirst?_stable (by decide) [] hsf'
      rw [hidp]
      simpa using this
  | none =>
    have hidp : s.id = ((splitWs line).getD 2 []).dropWhile fun c => decide (c = '>') := by
      rw [hid]; unfold firstSegment; rw [hsf]
    refine ⟨?_, ?_, ?_, parseU32_lt hlen, hrepgood⟩
    · rw [hidp]; exact htws
    · rw [hidp]; exact hthead
    · right
      rw [hidp]
      exact hsf

/-! ## Lemmas: the streaming state machine -/

theorem processLines_nil (cur : Option Cluster) : processLines cur [] = ([], cur, none) := rfl

theorem processLines_header {line : List Char} (h : line.head? = some '>')
    (c : Cluster) (rest : List (List Char)) :
    processLines (some c) (line :: rest) =
      (c :: (processLines (some ⟨c.cluster_id + 1, []⟩) rest).1,
        (processLines (some ⟨c.cluster_id + 1, []⟩) rest).2.1,
        (processLines (some ⟨c.cluster_id + 1, []⟩) rest).2.2) := by
  conv_lhs => unfold processLines
  rw [if_pos h]

theorem processLines_header_none {line : List Char} (h : line.head? = some '>')
    (rest : List (List Char)) :
    processLines none (line :: rest) = processLines (some ⟨0, []⟩) rest := by
  conv_lhs => unfold processLines
  rw [if_pos h]

theorem processLines_seq_ok {line : List Char} (h : line.head? ≠ some '>')
    {s : Sequence} (hp : parse_sequence_line line = .ok s)
    (c : Cluster) (rest : List (List Char)) :
    processLines (some c) (line :: rest) =
      processLines (some ⟨c.cluster_id, c.sequences ++ [s]⟩) rest := by
  conv_lhs => unfold processLines
  rw [if_neg h]
  dsimp only
  rw [hp]

theorem processLines_seq_err {line : List Char} (h : line.head? ≠ some '>')
    {e : ErrorKind} (hp : parse_sequence_line line = .error e)
    (c : Cluster) (rest : List (List Char)) :
    processLines (some c) (line :: rest) = ([], some c, some e) := by
  conv_lhs => unfold processLines
  rw [if_neg h]
  dsimp only
  rw [hp]

theorem processLines_stray {line : List Char} (h : line.head? ≠ some '>')
    (rest : List (List Char)) :
    processLines none (line :: rest) = processLines none rest := by
  conv_lhs => unfold processLines
  rw [if_neg h]

theorem processLines_append_ok :
    ∀ {pre : List (List Char)} {cur : Option Cluster} {cs : List Cluster}
      {st : Option Cluster}, processLines cur pre = (cs, st, none) →
      ∀ (l2 : List (List Char)),
        processLines cur (pre ++ l2) =
          (cs ++ (processLines st l2).1, (processLines st l2).2.1,
            (processLines st l2).2.2) := by
  intro pre
  induction pre with
  | nil =>
    intro cur cs st h l2
    rw [processLines_nil, Prod.mk.injEq, Prod.mk.injEq] at h
    obtain ⟨h1, h2, -⟩ := h
    subst h1; subst h2
    simp
  | cons line rest ih =>
    intro cur cs st h l2
    rw [List.cons_append]
    by_cases hh : line.head? = some '>'
    · cases cur with
      | none =>
        rw [processLines_header_none hh] at h
        rw [processLines_header_none hh]
        exact ih h l2
      | some c =>
        rcases hx : processLines (some ⟨c.cluster_id + 1, []⟩) rest with ⟨cs1, st1, e1⟩
        rw [processLines_header hh, hx] at h
        dsimp only at h
        rw [Prod.mk.injEq, Prod.mk.injEq] at h
        obtain ⟨h1, h2, h3⟩ := h
        subst h1; subst h2
        have hx' : processLines (some ⟨c.cluster_id + 1, []⟩) rest = (cs1, st1, none) := by
          rw [hx, ← h3]
        rw [processLines_header hh, ih hx' l2]
        simp
    · cases cur with
      | none =>
        rw [processLines_stray hh] at h
        rw [processLines_stray hh]
        exact ih h l2
      | some c =>
        cases hp : parse_sequence_line line with
        | error e' =>
          rw [processLines_seq_err hh hp, Prod.mk.injEq, Prod.mk.injEq] at h
          obtain ⟨-, -, h3⟩ := h
          cases h3
        | ok s' =>
          rw [processLines_seq_ok hh hp] at h
          rw [processLines_seq_ok hh hp]
          exact ih h l2

theorem headerCount_nil : headerCount [] = 0 := rfl

theorem headerCount_cons_pos {line : List Char} (h : line.head? = some '>')
    (rest : List (List Char)) : headerCount (line :: rest) = headerCount rest + 1 := by
  simp [headerCount, List.filter_cons, h]

theorem headerCount_cons_neg {line : List Char} (h : ¬ line.head? = some '>')
    (rest : List (List Char)) : headerCount (line :: rest) = headerCount rest := by
  simp [headerCount, List.filter_cons, h]

theorem processLines_ids :
    ∀ (lines : List (List Char)) (k : Nat) (sq : List Sequence) {cs : List Cluster}
      {st : Option Cluster} {e : Option ErrorKind},
      processLines (some ⟨k, sq⟩) lines = (cs, st, e) → e = none →
      cs.map Cluster.cluster_id = List.range' k (headerCount lines) ∧
      ∃ sq', st = some ⟨k + headerCount lines, sq'⟩ := by
  intro lines
  induction lines with
  | nil =>
    intro k sq cs st e h he
    rw [processLines_nil, Prod.mk.injEq, Prod.mk.injEq] at h
    obtain ⟨h1, h2, -⟩ := h
    subst h1; subst h2
    rw [headerCount_nil]
    exact ⟨rfl, sq, rfl⟩
  | cons line rest ih =>
    intro k sq cs st e h he
    by_cases hh : line.head? = some '>'
    · rcases hx : processLines (some ⟨k + 1, []⟩) rest with ⟨cs1, st1, e1⟩
      rw [processLines_header hh] at h
      dsimp only at h
      rw [hx] at h
      dsimp only at h
      rw [Prod.mk.injEq, Prod.mk.injEq] at h
      obtain ⟨h1, h2, h3⟩ := h
      subst h1; subst h2
      rw [← h3] at he
      obtain ⟨ha, sq', hb⟩ := ih (k + 1) [] hx he
      rw [headerCount_cons_pos hh]
      constructor
      · rw [List.map_cons, ha, List.range'_succ]
      · exact ⟨sq', by rw [hb, show k + (headerCount rest + 1) = k + 1 + headerCount rest by omega]⟩
    · cases hp : parse_sequence_line line with
      | error e' =>
        rw [processLines_seq_err hh hp, Prod.mk.injEq, Prod.mk.injEq] at h
        obtain ⟨-, -, h3⟩ := h
        rw [← h3] at he
        cases he
      | ok s' =>
        rw [processLines_seq_ok hh hp] at h
        rw [headerCount_cons_neg hh]
        exact ih k (sq ++ [s']) h he

theorem processLines_none_ids :
    ∀ (lines : List (List Char)) {cs : List Cluster} {st : Option Cluster}
      {e : Option ErrorKind}, processLines none lines = (cs, st, e) → e = none →
      (headerCount lines = 0 ∧ cs = [] ∧ st = none) ∨
      (1 ≤ headerCount lines ∧
        cs.map Cluster.cluster_id = List.range' 0 (headerCount lines - 1) ∧
        ∃ sq', st = some ⟨headerCount lines - 1, sq'⟩) := by
  intro lines
  induction lines with
  | nil =>
    intro cs st e h he
    rw [processLines_nil, Prod.mk.injEq, Prod.mk.injEq] at h
    obtain ⟨h1, h2, -⟩ := h
    exact Or.inl ⟨rfl, h1.symm, h2.symm⟩
  | cons line rest ih =>
    intro cs st e h he
    by_cases hh : line.head? = some '>'
    · rw [processLines_header_none hh] at h
      obtain ⟨ha, sq', hb⟩ := processLines_ids rest 0 [] h he
      right
      rw [headerCount_cons_pos hh]
      refine ⟨by omega, ?_, sq', ?_⟩
      · rw [ha]
        norm_num
      · rw [hb]
        norm_num
    · rw [processLines_stray hh] at h
      rw [headerCount_cons_neg hh]
      exact ih h he

theorem processLines_good :
    ∀ (lines : List (List Char)) {cur : Option Cluster} {cs : List Cluster}
      {st : Option Cluster} {e : Option ErrorKind},
      processLines cur lines = (cs, st, e) →
      (∀ c, cur = some c → ∀ s ∈ c.sequences, GoodSeq s) → e = none →
      (∀ c ∈ cs, ∀ s ∈ c.sequences, GoodSeq s) ∧
      (∀ c, st = some c → ∀ s ∈ c.sequences, GoodSeq s) := by
  intro lines
  induction lines with
  | nil =>
    intro cur cs st e h hcur he
    rw [processLines_nil, Prod.mk.injEq, Prod.mk.injEq] at h
    obtain ⟨h1, h2, -⟩ := h
    subst h1; subst h2
    exact ⟨fun c hc => absurd hc (List.not_mem_nil c), hcur⟩
  | cons line rest ih =>
    intro cur cs st e h hcur he
    by_cases hh : line.head? = some '>'
    · cases cur with
      | none =>
        rw [processLines_header_none hh] at h
        exact ih h (fun c hc => by
          rw [Option.some.injEq] at hc
          intro s hs
          rw [← hc] at hs
          exact absurd hs (List.not_mem_nil s)) he
      | some c =>
        rcases hx : processLines (some ⟨c.cluster_id + 1, []⟩) rest with ⟨cs1, st1, e1⟩
        rw [processLines_header hh] at h
        rw [hx] at h
        rw [Prod.mk.injEq, Prod.mk.injEq] at h
        obtain ⟨h1, h2, h3⟩ := h
        subst h1; subst h2
        rw [← h3] at he
        obtain ⟨ha, hb⟩ := ih hx (fun c' hc' => by
          rw [Option.some.injEq] at hc'
          intro s hs
          rw [← hc'] at hs
          exact absurd hs (List.not_mem_nil s)) he
        refine ⟨?_, hb⟩
        intro c' hc'
        rcases List.mem_cons.1 hc' with h4 | h4
        · rw [h4]
          exact hcur c rfl
        · exact ha c' h4
    · cases cur with
      | none =>
        rw [processLines_stray hh] at h
        exact ih h (fun c hc => by cases hc) he
      | some c =>
        cases hp : parse_sequence_line line with
        | error e' =>
          rw [processLines_seq_err hh hp, Prod.mk.injEq, Prod.mk.injEq] at h
          obtain ⟨-, -, h3⟩ := h
          rw [← h3] at he
          cases he
        | ok s' =>
          rw [processLines_seq_ok hh hp] at h
          exact ih h (fun c' hc' => by
            rw [Option.some.injEq] at hc'
            intro s hs
            rw [← hc'] at hs
            dsimp only at hs
            rcases List.mem_append.1 hs with h4 | h4
            · exact hcur c rfl s h4
            · rw [List.mem_singleton] at h4
              rw [h4]
              exact parse_ok_good hp) he

theorem runItems_good {lines : List (List Char)} {cs : List Cluster}
    (h : runItems none lines = (cs, none)) : ∀ c ∈ cs, ∀ s ∈ c.sequences, GoodSeq s := by
  unfold runItems at h
  rcases hx : processLines none lines with ⟨cs1, st1, e1⟩
  rw [hx] at h
  cases e1 with
  | none =>
    dsimp only at h
    rw [Prod.mk.injEq] at h
    obtain ⟨h1, -⟩ := h
    obtain ⟨ha, hb⟩ := processLines_good lines hx (fun c hc => by cases hc) rfl
    intro c hc
    rw [← h1] at hc
    rcases List.mem_append.1 hc with h4 | h4
    · exact ha c h4
    · cases st1 with
      | none => cases h4
      | some c1 =>
        rw [Option.toList_some, List.mem_singleton] at h4
        rw [h4]
        exact hb c1 rfl
  | some e' =>
    dsimp only at h
    rw [Prod.mk.injEq] at h
    obtain ⟨-, h2⟩ := h
    cases h2

/-! ## Supporting lemmas for the cluster operations -/

theorem find?_eq_get_of_first :
    ∀ (l : List Sequence) (i : Nat) (h : i < l.length),
      (l.get ⟨i, h⟩).is_representative = true →
      (∀ j, j < i → ∀ (hj2 : j < l.length), (l.get ⟨j, hj2⟩).is_representative = false) →
      l.find? (fun s => s.is_representative) = some (l.get ⟨i, h⟩) := by
  intro l
  induction l with
  | nil => intro i h _ _; exact absurd h (by simp)
  | cons x xs ih =>
    intro i h hrep hbefore
    cases i with
    | zero =>
      rw [List.find?_cons_of_pos _ (by simpa using hrep)]
      rfl
    | succ i' =>
      have hx : x.is_representative = false := hbefore 0 (by omega) (by simp)
      rw [List.find?_cons_of_neg _ (by simp [hx])]
      rw [show (x :: xs).get ⟨i' + 1, h⟩ = xs.get ⟨i', by simpa using h⟩ from rfl]
      refine ih i' (by simpa using h) (by simpa using hrep) ?_
      intro j hj hj2
      have := hbefore (j + 1) (by omega) (by simpa using hj2)
      simpa using this

/-! ## Claim theorems -/

/-- C1: for every well-formed input (the parser stream ends without error),
the parser yields exactly `headerCount lines` clusters whose `cluster_id`
fields are `0, 1, ..., K - 1` in emission order; only the leading `>` of a
header line matters, so the numeral text inside a header is never parsed. -/
theorem c1_cluster_ids {lines : List (List Char)} {cs : List Cluster}
    (h : runItems none lines = (cs, none)) :
    cs.map Cluster.cluster_id = List.range (headerCount lines) ∧
    cs.length = headerCount lines := by
  have hmap : cs.map Cluster.cluster_id = List.range (headerCount lines) := by
    unfold runItems at h
    rcases hx : processLines none lines with ⟨cs1, st1, e1⟩
    rw [hx] at h
    cases e1 with
    | some e' =>
      dsimp only at h
      rw [Prod.mk.injEq] at h
      cases h.2
    | none =>
      dsimp only at h
      rw [Prod.mk.injEq] at h
      obtain ⟨h1, -⟩ := h
      rcases processLines_none_ids lines hx rfl with ⟨hc0, hcs, hst⟩ | ⟨hge, hm, sq', hst⟩
      · subst hcs; subst hst
        rw [← h1, hc0]
        rfl
      · subst hst
        rw [← h1, List.map_append, hm, List.range_eq_range']
        rw [show Option.toList (some (⟨headerCount lines - 1, sq'⟩ : Cluster)) =
          [⟨headerCount lines - 1, sq'⟩] from rfl]
        rw [List.map_singleton]
        conv_rhs => rw [show headerCount lines = (headerCount lines - 1) + 1 by omega]
        rw [List.range'_concat]
        norm_num
  refine ⟨hmap, ?_⟩
  have hl := congrArg List.length hmap
  simpa using hl

/-- Witness for C1 at a concrete input whose header numerals (42 and 7) do
not match the assigned ids (0 and 1). -/
theorem c1_cluster_ids_witness :
    runItems none [(">Cluster 42").toList, ("0 5aa, >x...").toList, (">Cluster 7").toList] =
      ([⟨0, [⟨5, ("x").toList, none, false⟩]⟩, ⟨1, []⟩], none) ∧
    ([⟨0, [⟨5, ("x").toList, none, false⟩]⟩, (⟨1, []⟩ : Cluster)].map Cluster.cluster_id =
        List.range (headerCount
          [(">Cluster 42").toList, ("0 5aa, >x...").toList, (">Cluster 7").toList]) ∧
      ([⟨0, [⟨5, ("x").toList, none, false⟩]⟩, (⟨1, []⟩ : Cluster)] : List Cluster).length =
        headerCount
          [(">Cluster 42").toList, ("0 5aa, >x...").toList, (">Cluster 7").toList]) :=
  ⟨by decide, c1_cluster_ids (by decide)⟩

/-- C3 counterexample: `>garbage` does not begin with `>` + "Cluster", yet it
acts as a cluster boundary (two clusters come out, the second empty) instead
of being parsed as a sequence-record line, which would have failed. -/
theorem c3_counterexample :
    runItems none [(">Cluster 0").toList, (">garbage").toList] =
      ([⟨0, []⟩, ⟨1, []⟩], none) ∧
    parse_sequence_line ((">garbage").toList) =
      .error (.readRecord (("Invalid sequence line: ").toList ++ (">garbage").toList)) :=
  ⟨by decide, by decide⟩

/-- C3 (amended): while a cluster is accumulating, exactly the lines whose
first character is `>` seal it (the word "Cluster" is never checked), and
every other line is parsed as a sequence record — appended on success, the
stream ending with the error on failure. -/
theorem c3_boundary_dispatch (c : Cluster) (line : List Char) (rest : List (List Char)) :
    (line.head? = some '>' →
      processLines (some c) (line :: rest) =
        (c :: (processLines (some ⟨c.cluster_id + 1, []⟩) rest).1,
          (processLines (some ⟨c.cluster_id + 1, []⟩) rest).2.1,
          (processLines (some ⟨c.cluster_id + 1, []⟩) rest).2.2)) ∧
    (line.head? ≠ some '>' →
      (∀ s, parse_sequence_line line = .ok s →
        processLines (some c) (line :: rest) =
          processLines (some ⟨c.cluster_id, c.sequences ++ [s]⟩) rest) ∧
      (∀ e, parse_sequence_line line = .error e →
        processLines (some c) (line :: rest) = ([], some c, some e))) :=
  ⟨fun h => processLines_header h c rest,
   fun h => ⟨fun _ hs => processLines_seq_ok h hs c rest,
             fun _ he => processLines_seq_err h he c rest⟩⟩

/-- Witness for the amended C3 at concrete lines of both kinds. -/
theorem c3_boundary_dispatch_witness :
    processLines (some ⟨0, []⟩) [(">Cluster 1").toList] = ([⟨0, []⟩], some ⟨1, []⟩, none) ∧
    processLines (some ⟨0, []⟩) [("0 5aa, >y...").toList] =
      ([], some ⟨0, [⟨5, ("y").toList, none, false⟩]⟩, none) := by
  constructor
  · have h := (c3_boundary_dispatch ⟨0, []⟩ ((">Cluster 1").toList) []).1 (by decide)
    exact h.trans (by decide)
  · have h := ((c3_boundary_dispatch ⟨0, []⟩ (("0 5aa, >y...").toList) []).2
      (by decide)).1 ⟨5, ("y").toList, none, false⟩ (by decide)
    exact h.trans (by decide)

/-- C4: a line with fewer than 3 whitespace tokens fails with a
structural-record error carrying the line; a line whose second token does not
end in `aa,` fails with a structural-record error carrying the line; a line
whose length digits do not parse as `u32` fails with an integer-parse error. -/
theorem c4_malformed_errors (line : List Char) :
    ((splitWs line).length < 3 →
      parse_sequence_line line =
        .error (.readRecord (("Invalid sequence line: ").toList ++ line))) ∧
    (¬ (splitWs line).length < 3 →
      stripSuffix? (("aa,").toList) ((splitWs line).getD 1 []) = none →
      parse_sequence_line line =
        .error (.readRecord (("Invalid length format: ").toList ++ line))) ∧
    (∀ lenD, ¬ (splitWs line).length < 3 →
      stripSuffix? (("aa,").toList) ((splitWs line).getD 1 []) = some lenD →
      parseU32 lenD = none →
      parse_sequence_line line = .error .intErr) :=
  ⟨fun h => parse_error_short h,
   fun h3 h => parse_error_suffix h3 h,
   fun _ h3 h hu => parse_error_int h3 h hu⟩

/-- Witness for C4 on the three failure shapes. -/
theorem c4_malformed_errors_witness :
    parse_sequence_line (("ab").toList) =
      .error (.readRecord (("Invalid sequence line: ").toList ++ ("ab").toList)) ∧
    parse_sequence_line (("0 5bb, x").toList) =
      .error (.readRecord (("Invalid length format: ").toList ++ ("0 5bb, x").toList)) ∧
    parse_sequence_line (("0 xaa, y").toList) = .error .intErr :=
  ⟨(c4_malformed_errors (("ab").toList)).1 (by decide),
   (c4_malformed_errors (("0 5bb, x").toList)).2.1 (by decide) (by decide),
   (c4_malformed_errors (("0 xaa, y").toList)).2.2 (("x").toList) (by decide) (by decide)
     (by decide)⟩

/-- C5 counterexample: a third token with no `...` parses fine (the whole
token becomes the id, no "bad ID format" error), and every leading `>` is
stripped, not just one. -/
theorem c5_counterexample :
    parse_sequence_line (("0 5aa, abc").toList) = .ok ⟨5, ("abc").toList, none, false⟩ ∧
    parse_sequence_line (("0 5aa, >>a...b").toList) =
      .ok ⟨5, ("a").toList, none, false⟩ :=
  ⟨by decide, by decide⟩

/-- C5 (amended): the id is the third token with all leading `>` stripped,
cut at the first `...` when the delimiter occurs and kept whole otherwise
(empty when the token starts with the delimiter); the id step never fails —
every parse error is one of the other four shapes, never "bad ID format". -/
theorem c5_id_extraction (line : List Char) :
    (∀ s, parse_sequence_line line = .ok s →
      s.id = firstSegment (("...").toList)
        (((splitWs line).getD 2 []).dropWhile fun c => decide (c = '>'))) ∧
    (∀ e, parse_sequence_line line = .error e →
      e = .readRecord (("Invalid sequence line: ").toList ++ line) ∨
      e = .readRecord (("Invalid length format: ").toList ++ line) ∨
      e = .intErr ∨ e = .floatErr) :=
  ⟨fun _ hs => (parse_ok_anatomy hs).2.2.1, fun _ he => parse_error_cases he⟩

/-- Witness for the amended C5. -/
theorem c5_id_extraction_witness :
    (⟨5, ("q").toList, none, false⟩ : Sequence).id = firstSegment (("...").toList)
      (((splitWs (("0 5aa, >q...r").toList)).getD 2 []).dropWhile
        fun c => decide (c = '>')) ∧
    (ErrorKind.floatErr =
        .readRecord (("Invalid sequence line: ").toList ++ ("0 5aa, >w... at zz%").toList) ∨
      ErrorKind.floatErr =
        .readRecord (("Invalid length format: ").toList ++ ("0 5aa, >w... at zz%").toList) ∨
      ErrorKind.floatErr = .intErr ∨ ErrorKind.floatErr = .floatErr) :=
  ⟨(c5_id_extraction (("0 5aa, >q...r").toList)).1 ⟨5, ("q").toList, none, false⟩
      (by decide),
   (c5_id_extraction (("0 5aa, >w... at zz%").toList)).2 .floatErr (by decide)⟩

/-- C6 counterexample: a line with both ` at ` and a trailing `*` does not
parse with both fields set — it fails with a float-parse error, because the
text after ` at ` still ends in `*` after `%`-trimming. -/
theorem c6_counterexample :
    parse_sequence_line (("0    100aa, >seqA... at 95.00% *").toList) = .error .floatErr := by
  decide

/-- C6 (amended): a line without ` at ` yields `identity = none`; a line
ending in `*` that parses yields `is_representative = true`; but a line with
both ` at ` and a trailing `*` never parses successfully, so the two fields
are never both set. -/
theorem c6_identity_rep (line : List Char) :
    (∀ s, parse_sequence_line line = .ok s →
      splitFirst? ((" at ").toList) line = none → s.identity = none) ∧
    (∀ s, parse_sequence_line line = .ok s →
      line.getLast? = some '*' → s.is_representative = true) ∧
    (splitFirst? ((" at ").toList) line ≠ none → line.getLast? = some '*' →
      ∀ s, parse_sequence_line line ≠ .ok s) := by
  refine ⟨?_, ?_, ?_⟩
  · intro s hs hat
    rcases (parse_ok_anatomy hs).2.2.2.2 with ⟨-, hnone⟩ | ⟨p, q, hat', -, -⟩
    · exact hnone
    · rw [hat'] at hat
      cases hat
  · intro s hs hstar
    rw [(parse_ok_anatomy hs).2.2.2.1, hstar]
    decide
  · intro hat hstar s hok
    obtain ⟨-, -, -, hrep, hident⟩ := parse_ok_anatomy hok
    have hgood := parse_ok_good hok
    rcases hident with ⟨h1, -⟩ | ⟨p, q, -, -, hsome⟩
    · exact hat h1
    · have hrepfalse : s.is_representative = false :=
        hgood.2.2.2.2 (by rw [hsome]; rfl)
      have hreptrue : s.is_representative = true := by
        rw [hrep, hstar]
        decide
      rw [hreptrue] at hrepfalse
      cases hrepfalse

/-- Witness for the amended C6. -/
theorem c6_identity_rep_witness :
    (⟨5, ("n").toList, none, false⟩ : Sequence).identity = none ∧
    (⟨5, ("m").toList, none, true⟩ : Sequence).is_representative = true ∧
    parse_sequence_line (("0 5aa, >z... at 9% *").toList) ≠
      .ok ⟨5, ("z").toList, some (9 : ℚ), true⟩ :=
  ⟨(c6_identity_rep (("0 5aa, >n...").toList)).1 ⟨5, ("n").toList, none, false⟩
      (by decide) (by decide),
   (c6_identity_rep (("0 5aa, >m... *").toList)).2.1 ⟨5, ("m").toList, none, true⟩
      (by decide) (by decide),
   (c6_identity_rep (("0 5aa, >z... at 9% *").toList)).2.2 (by decide) (by decide)
      ⟨5, ("z").toList, some (9 : ℚ), true⟩⟩

/-- C7: once a malformed sequence line is hit while accumulating, the item
stream ends with that error: the clusters yielded are exactly those sealed
before the malformed line, whatever follows it. -/
theorem c7_error_terminal {pre : List (List Char)} {cs : List Cluster} {c : Cluster}
    (hpre : processLines none pre = (cs, some c, none))
    {bad : List Char} (hh : bad.head? ≠ some '>')
    {e : ErrorKind} (hbad : parse_sequence_line bad = .error e)
    (post : List (List Char)) :
    runItems none (pre ++ bad :: post) = (cs, some e) := by
  unfold runItems
  rw [processLines_append_ok hpre (bad :: post)]
  rw [processLines_seq_err hh hbad]
  dsimp only
  rw [List.append_nil]

/-- Witness for C7: the error cuts off a later, well-formed cluster. -/
theorem c7_error_terminal_witness :
    runItems none ([(">Cluster 0").toList, ("0 5aa, >x...").toList,
        (">Cluster 1").toList] ++ ("junk").toList :: [(">Cluster 2").toList]) =
      ([⟨0, [⟨5, ("x").toList, none, false⟩]⟩],
        some (.readRecord (("Invalid sequence line: ").toList ++ ("junk").toList))) := by
  have hpre : processLines none [(">Cluster 0").toList, ("0 5aa, >x...").toList,
      (">Cluster 1").toList] =
      ([⟨0, [⟨5, ("x").toList, none, false⟩]⟩], some ⟨1, []⟩, none) := by decide
  have hbad : parse_sequence_line (("junk").toList) =
      .error (.readRecord (("Invalid sequence line: ").toList ++ ("junk").toList)) := by
    decide
  exact c7_error_terminal hpre (by decide) hbad [(">Cluster 2").toList]

/-- C8: non-header lines before the first header are silently dropped, and
an input with no header line at all (the empty input included) produces an
empty cluster stream with no error. -/
theorem c8_stray_and_empty :
    (∀ (strays rest : List (List Char)), (∀ l ∈ strays, l.head? ≠ some '>') →
      runItems none (strays ++ rest) = runItems none rest) ∧
    (∀ lines : List (List Char), (∀ l ∈ lines, l.head? ≠ some '>') →
      runItems none lines = ([], none)) := by
  have hstray : ∀ (strays rest : List (List Char)), (∀ l ∈ strays, l.head? ≠ some '>') →
      processLines none (strays ++ rest) = processLines none rest := by
    intro strays
    induction strays with
    | nil => intro rest _; rfl
    | cons l ls ih =>
      intro rest h
      rw [List.cons_append, processLines_stray (h l (by simp))]
      exact ih rest (fun x hx => h x (by simp [hx]))
  constructor
  · intro strays rest h
    unfold runItems
    rw [hstray strays rest h]
  · intro lines h
    have h1 := hstray lines [] h
    rw [List.append_nil] at h1
    unfold runItems
    rw [h1]
    rfl

/-- Witness for C8: one stray line before a header is dropped, and an input
of two stray lines yields nothing. -/
theorem c8_stray_and_empty_witness :
    runItems none ([("junk line").toList] ++ [(">Cluster 0").toList]) =
      runItems none [(">Cluster 0").toList] ∧
    runItems none [("alpha").toList, ("beta").toList] = ([], none) :=
  ⟨c8_stray_and_empty.1 [("junk line").toList] [(">Cluster 0").toList] (by decide),
   c8_stray_and_empty.2 [("alpha").toList, ("beta").toList] (by decide)⟩

theorem insertBySizeDesc_cons (x y : Cluster) (ys : List Cluster) :
    insertBySizeDesc x (y :: ys) =
      if x.size < y.size then y :: insertBySizeDesc x ys else x :: y :: ys := rfl

theorem mem_insertBySizeDesc {z x : Cluster} :
    ∀ {l : List Cluster}, z ∈ insertBySizeDesc x l → z = x ∨ z ∈ l := by
  intro l
  induction l with
  | nil =>
    intro h
    rw [show insertBySizeDesc x [] = [x] from rfl, List.mem_singleton] at h
    exact Or.inl h
  | cons y ys ih =>
    intro h
    rw [insertBySizeDesc_cons] at h
    split at h
    · rcases List.mem_cons.1 h with h1 | h1
      · exact Or.inr (by rw [h1]; simp)
      · rcases ih h1 with h2 | h2
        · exact Or.inl h2
        · exact Or.inr (List.mem_cons_of_mem y h2)
    · rcases List.mem_cons.1 h with h1 | h1
      · exact Or.inl h1
      · exact Or.inr h1

theorem pairwise_insertBySizeDesc (x : Cluster) :
    ∀ {l : List Cluster}, List.Pairwise (fun a b => b.size ≤ a.size) l →
      List.Pairwise (fun a b => b.size ≤ a.size) (insertBySizeDesc x l) := by
  intro l
  induction l with
  | nil => intro _; exact List.pairwise_singleton _ _
  | cons y ys ih =>
    intro h
    rw [List.pairwise_cons] at h
    obtain ⟨hy, hys⟩ := h
    rw [insertBySizeDesc_cons]
    by_cases hlt : x.size < y.size
    · rw [if_pos hlt, List.pairwise_cons]
      refine ⟨?_, ih hys⟩
      intro z hz
      rcases mem_insertBySizeDesc hz with h1 | h1
      · rw [h1]; omega
      · exact hy z h1
    · rw [if_neg hlt, List.pairwise_cons]
      refine ⟨?_, by rw [List.pairwise_cons]; exact ⟨hy, hys⟩⟩
      intro z hz
      rcases List.mem_cons.1 hz with h1 | h1
      · rw [h1]; omega
      · have := hy z h1
        omega

theorem perm_insertBySizeDesc (x : Cluster) :
    ∀ (l : List Cluster), (insertBySizeDesc x l).Perm (x :: l) := by
  intro l
  induction l with
  | nil => exact List.Perm.refl _
  | cons y ys ih =>
    rw [insertBySizeDesc_cons]
    by_cases hlt : x.size < y.size
    · rw [if_pos hlt]
      exact (List.Perm.cons y ih).trans (List.Perm.swap x y ys)
    · rw [if_neg hlt]

theorem filter_insertBySizeDesc (x : Cluster) (k : Nat) :
    ∀ (l : List Cluster),
      (insertBySizeDesc x l).filter (fun c => decide (c.size = k)) =
        if x.size = k then x :: l.filter (fun c => decide (c.size = k))
        else l.filter (fun c => decide (c.size = k)) := by
  intro l
  induction l with
  | nil =>
    rw [show insertBySizeDesc x [] = [x] from rfl]
    by_cases hx : x.size = k
    · rw [if_pos hx]
      simp [List.filter_cons, hx]
    · rw [if_neg hx]
      simp [List.filter_cons, hx]
  | cons y ys ih =>
    rw [insertBySizeDesc_cons]
    by_cases hlt : x.size < y.size
    · rw [if_pos hlt, List.filter_cons, ih]
      by_cases hx : x.size = k
      · have hy : ¬ y.size = k := by omega
        rw [if_pos hx, if_pos hx]
        simp [List.filter_cons, hy]
      · rw [if_neg hx, if_neg hx, List.filter_cons]
    · rw [if_neg hlt, List.filter_cons]
      by_cases hx : x.size = k
      · rw [if_pos (by simpa using hx), if_pos hx]
      · rw [if_neg (by simpa using hx), if_neg hx]

theorem sortBySizeDesc_pairwise (cs : List Cluster) :
    List.Pairwise (fun a b => b.size ≤ a.size) (sortBySizeDesc cs) := by
  induction cs with
  | nil => exact List.Pairwise.nil
  | cons x xs ih => exact pairwise_insertBySizeDesc x ih

theorem sortBySizeDesc_perm (cs : List Cluster) : (sortBySizeDesc cs).Perm cs := by
  induction cs with
  | nil => exact List.Perm.refl _
  | cons x xs ih =>
    exact (perm_insertBySizeDesc x (sortBySizeDesc xs)).trans (List.Perm.cons x ih)

theorem sortBySizeDesc_filter (cs : List Cluster) (k : Nat) :
    (sortBySizeDesc cs).filter (fun c => decide (c.size = k)) =
      cs.filter (fun c => decide (c.size = k)) := by
  induction cs with
  | nil => rfl
  | cons x xs ih =>
    rw [show sortBySizeDesc (x :: xs) = insertBySizeDesc x (sortBySizeDesc xs) from rfl]
    rw [filter_insertBySizeDesc, ih, List.filter_cons]
    by_cases hx : x.size = k
    · rw [if_pos hx, if_pos (by simpa using hx)]
    · rw [if_neg hx, if_neg (by simpa using hx)]

/-- C9: `top_n` keeps the first N of `sortBySizeDesc`, which sorts the
collected clusters by size in descending order, permutes the input, and is
stable — the clusters of each fixed size appear in exactly their original
relative order, the tie-breaking Rust's stable `sort_by_key` guarantees;
for sizes [5, 1, 3] and N = 2 the selection is the size-5 cluster then the
size-3 cluster. -/
theorem c9_top_n (cs : List Cluster) (n : Nat) :
    top_n n cs = (sortBySizeDesc cs).take n ∧
    List.Pairwise (fun a b => b.size ≤ a.size) (sortBySizeDesc cs) ∧
    (sortBySizeDesc cs).Perm cs ∧
    (∀ k, (sortBySizeDesc cs).filter (fun c => decide (c.size = k)) =
      cs.filter (fun c => decide (c.size = k))) ∧
    (∀ a b c : Cluster, a.size = 5 → b.size = 1 → c.size = 3 →
      top_n 2 [a, b, c] = [a, c]) := by
  refine ⟨rfl, sortBySizeDesc_pairwise cs, sortBySizeDesc_perm cs,
    sortBySizeDesc_filter cs, ?_⟩
  intro a b c ha hb hc
  have e3 : insertBySizeDesc b [c] = [c, b] := by
    rw [insertBySizeDesc_cons, if_pos (by rw [hb, hc]; omega)]
    rfl
  have e4 : insertBySizeDesc a [c, b] = [a, c, b] := by
    rw [insertBySizeDesc_cons, if_neg (by rw [ha, hc]; omega)]
  unfold top_n
  rw [show sortBySizeDesc [a, b, c] =
    insertBySizeDesc a (insertBySizeDesc b (insertBySizeDesc c [])) from rfl]
  rw [show insertBySizeDesc c [] = [c] from rfl, e3, e4]
  rfl

/-- Witness for C9: the distinct-size [5, 1, 3] instance, plus a list with a
size tie (sizes [2, 1, 2]) on which the stability conjuncts are instantiated
and the sorted output is checked concretely — the two size-2 clusters keep
their original order. -/
theorem c9_top_n_witness :
    top_n 2 [⟨0, List.replicate 5 ⟨1, [('x' : Char)], none, true⟩⟩,
        ⟨1, List.replicate 1 ⟨1, [('x' : Char)], none, true⟩⟩,
        ⟨2, List.replicate 3 ⟨1, [('x' : Char)], none, true⟩⟩] =
      [⟨0, List.replicate 5 ⟨1, [('x' : Char)], none, true⟩⟩,
        ⟨2, List.replicate 3 ⟨1, [('x' : Char)], none, true⟩⟩] ∧
    sortBySizeDesc [⟨0, List.replicate 2 ⟨1, [('y' : Char)], none, true⟩⟩,
        ⟨1, List.replicate 1 ⟨1, [('y' : Char)], none, true⟩⟩,
        ⟨2, List.replicate 2 ⟨1, [('y' : Char)], none, true⟩⟩] =
      [⟨0, List.replicate 2 ⟨1, [('y' : Char)], none, true⟩⟩,
        ⟨2, List.replicate 2 ⟨1, [('y' : Char)], none, true⟩⟩,
        ⟨1, List.replicate 1 ⟨1, [('y' : Char)], none, true⟩⟩] ∧
    (sortBySizeDesc [⟨0, List.replicate 2 ⟨1, [('y' : Char)], none, true⟩⟩,
        ⟨1, List.replicate 1 ⟨1, [('y' : Char)], none, true⟩⟩,
        ⟨2, List.replicate 2 ⟨1, [('y' : Char)], none, true⟩⟩]).filter
        (fun c => decide (c.size = 2)) =
      ([⟨0, List.replicate 2 ⟨1, [('y' : Char)], none, true⟩⟩,
        ⟨1, List.replicate 1 ⟨1, [('y' : Char)], none, true⟩⟩,
        ⟨2, List.replicate 2 ⟨1, [('y' : Char)], none, true⟩⟩] :
          List Cluster).filter (fun c => decide (c.size = 2)) := by
  refine ⟨?_, by decide, ?_⟩
  · exact (c9_top_n [] 0).2.2.2.2 _ _ _ (by decide) (by decide) (by decide)
  · exact (c9_top_n [⟨0, List.replicate 2 ⟨1, [('y' : Char)], none, true⟩⟩,
      ⟨1, List.replicate 1 ⟨1, [('y' : Char)], none, true⟩⟩,
      ⟨2, List.replicate 2 ⟨1, [('y' : Char)], none, true⟩⟩] 2).2.2.2.1 2

/-- C10: `get_representative` returns the first sequence (in insertion
order) whose flag is set, and `none` when no sequence has the flag; it does
not require the representative to be unique. -/
theorem c10_get_representative (c : Cluster) :
    ((∀ s ∈ c.sequences, s.is_representative = false) → c.get_representative = none) ∧
    (∀ (i : Nat) (h : i < c.sequences.length),
      (c.sequences.get ⟨i, h⟩).is_representative = true →
      (∀ j, j < i → ∀ (hj2 : j < c.sequences.length),
        (c.sequences.get ⟨j, hj2⟩).is_representative = false) →
      c.get_representative = some (c.sequences.get ⟨i, h⟩)) := by
  constructor
  · intro h
    unfold Cluster.get_representative
    rw [List.find?_eq_none]
    intro s hs
    rw [h s hs]
    decide
  · intro i h hrep hbefore
    exact find?_eq_get_of_first c.sequences i h hrep hbefore

/-- Witness for C10: a cluster whose second and third members are flagged
returns the second; a cluster with no flags returns none. -/
theorem c10_get_representative_witness :
    (Cluster.mk 0 [⟨1, [('a' : Char)], none, false⟩, ⟨2, [('b' : Char)], none, true⟩,
        ⟨3, [('c' : Char)], none, true⟩]).get_representative =
      some ⟨2, [('b' : Char)], none, true⟩ ∧
    (Cluster.mk 1 [⟨1, [('d' : Char)], none, false⟩]).get_representative = none := by
  constructor
  · have h := (c10_get_representative
      (Cluster.mk 0 [⟨1, [('a' : Char)], none, false⟩, ⟨2, [('b' : Char)], none, true⟩,
        ⟨3, [('c' : Char)], none, true⟩])).2 1 (by decide) (by decide)
      (by intro j hj hj2; interval_cases j; rfl)
    exact h
  · exact (c10_get_representative
      (Cluster.mk 1 [⟨1, [('d' : Char)], none, false⟩])).1 (by decide)

/-! ## Lemmas: shape of a written sequence line -/

theorem not_ws_ne_space {c : Char} (h : c.isWhitespace = false) : c ≠ ' ' := by
  intro e; rw [e] at h; cases h

theorem natDigits_not_ws (n : Nat) : ∀ c ∈ natDigits n, c.isWhitespace = false :=
  fun c hc => isDigit_not_ws (natDigits_all_digit n c hc)

theorem natDigits_getLast_digit (n : Nat) :
    ∃ d, (natDigits n).getLast? = some d ∧ d.isDigit = true := by
  by_cases h : n < 10
  · exact ⟨digitChar n, by rw [natDigits_lt10 h]; rfl, digitChar_isDigit h⟩
  · refine ⟨digitChar (n % 10), ?_, digitChar_isDigit (Nat.mod_lt n (by omega))⟩
    rw [natDigits_ge10 (by omega), getLast?_append_singleton]

theorem fmt2_not_ws (q : ℚ) : ∀ c ∈ fmt2 q, c.isWhitespace = false := by
  intro c hc
  unfold fmt2 at hc
  dsimp only at hc
  rcases List.mem_append.1 hc with h1 | h1
  · rcases List.mem_append.1 h1 with h2 | h2
    · split at h2
      · rw [List.mem_singleton] at h2
        rw [h2]; decide
      · cases h2
    · exact isDigit_not_ws (natDigits_all_digit _ c h2)
  · rcases List.mem_cons.1 h1 with h2 | h2
    · rw [h2]; decide
    · exact isDigit_not_ws (twoFracDigits_all_digit c h2)

theorem twoFracDigits_ne_nil (m : Nat) : twoFracDigits m ≠ [] := by
  unfold twoFracDigits
  intro h
  rcases List.append_eq_nil.1 h with ⟨-, h2⟩
  exact natDigits_ne_nil m h2

theorem fmt2_getLast_digit (q : ℚ) :
    ∃ d, (fmt2 q).getLast? = some d ∧ d.isDigit = true := by
  unfold fmt2
  dsimp only
  obtain ⟨d, hd, hdig⟩ := natDigits_getLast_digit ((round (100 * q)).natAbs % 100)
  refine ⟨d, ?_, hdig⟩
  rw [List.getLast?_append_of_ne_nil _ (by simp)]
  rw [getLast?_cons_of_ne_nil (twoFracDigits_ne_nil _)]
  unfold twoFracDigits
  rw [List.getLast?_append_of_ne_nil _ (natDigits_ne_nil _)]
  exact hd

theorem tok1_not_ws (n : Nat) :
    ∀ c ∈ natDigits n ++ 'a' :: 'a' :: [','], c.isWhitespace = false := by
  intro c hc
  rcases List.mem_append.1 hc with h1 | h1
  · exact natDigits_not_ws _ c h1
  · rcases List.mem_cons.1 h1 with h2 | h2
    · rw [h2]; decide
    · rcases List.mem_cons.1 h2 with h3 | h3
      · rw [h3]; decide
      · rw [List.mem_singleton] at h3; rw [h3]; decide

theorem tok2_not_ws {id : List Char} (hid : ∀ c ∈ id, c.isWhitespace = false) :
    ∀ c ∈ '>' :: (id ++ '.' :: '.' :: ['.']), c.isWhitespace = false := by
  intro c hc
  rcases List.mem_cons.1 hc with h1 | h1
  · rw [h1]; decide
  · rcases List.mem_append.1 h1 with h2 | h2
    · exact hid c h2
    · rcases List.mem_cons.1 h2 with h3 | h3
      · rw [h3]; decide
      · rcases List.mem_cons.1 h3 with h4 | h4
        · rw [h4]; decide
        · rw [List.mem_singleton] at h4; rw [h4]; decide

theorem atTok_not_ws : ∀ c ∈ (['a', 't'] : List Char), c.isWhitespace = false := by
  intro c hc
  rcases List.mem_cons.1 hc with h1 | h1
  · rw [h1]; decide
  · rw [List.mem_singleton] at h1; rw [h1]; decide

theorem fmt2pct_not_ws (q : ℚ) : ∀ c ∈ fmt2 q ++ ['%'], c.isWhitespace = false := by
  intro c hc
  rcases List.mem_append.1 hc with h1 | h1
  · exact fmt2_not_ws q c h1
  · rw [List.mem_singleton] at h1; rw [h1]; decide

theorem splitFirst?_at_chunk {u : List Char} (hu : ∀ c ∈ u, c ≠ ' ') (v : List Char) :
    splitFirst? ((" at ").toList) (u ++ v) =
      (splitFirst? ((" at ").toList) v).map fun p => (u ++ p.1, p.2) := by
  induction u with
  | nil =>
    simp only [List.nil_append]
    cases splitFirst? ((" at ").toList) v <;> simp
  | cons c cs ih =>
    rw [List.cons_append]
    have hp : isPrefixL ((" at ").toList) (c :: (cs ++ v)) = false := by
      unfold isPrefixL
      rw [decide_eq_false_iff_not]
      intro he
      have h2 := congrArg List.head? he
      rw [show ((" at ").toList).length = 4 from rfl, List.take_succ_cons] at h2
      rw [List.head?_cons] at h2
      rw [show ((" at ").toList).head? = some ' ' from rfl] at h2
      rw [Option.some.injEq] at h2
      exact hu c (by simp) h2
    rw [splitFirst?_cons_nomatch hp]
    rw [ih (fun x hx => hu x (by simp [hx]))]
    cases splitFirst? ((" at ").toList) v <;> simp

theorem splitFirst?_at_space {v : List Char} (hv : v.head? ≠ some 'a') :
    splitFirst? ((" at ").toList) (' ' :: v) =
      (splitFirst? ((" at ").toList) v).map fun p => (' ' :: p.1, p.2) := by
  have hp : isPrefixL ((" at ").toList) (' ' :: v) = false := by
    unfold isPrefixL
    rw [decide_eq_false_iff_not]
    intro he
    rw [show ((" at ").toList).length = 4 from rfl, List.take_succ_cons] at he
    rw [show ((" at ").toList) = ' ' :: 'a' :: 't' :: [' '] from rfl] at he
    rw [List.cons.injEq] at he
    have h2 := congrArg List.head? he.2
    cases v with
    | nil => cases h2
    | cons x xs =>
      rw [List.take_succ_cons, List.head?_cons, List.head?_cons, Option.some.injEq] at h2
      exact hv (by rw [List.head?_cons, h2])
  exact splitFirst?_cons_nomatch hp

theorem dropWhile_gt_id {id : List Char} (h : id.head? ≠ some '>') :
    (id ++ ("...").toList).dropWhile (fun c => decide (c = '>')) =
      id ++ ("...").toList := by
  cases id with
  | nil => rfl
  | cons x xs =>
    rw [List.cons_append, List.dropWhile_cons, if_neg]
    rw [decide_eq_true_eq]
    intro e
    exact h (by rw [List.head?_cons, e])

theorem goodSeq_dots {s : Sequence} (hg : GoodSeq s) (hdot : s.id.getLast? ≠ some '.') :
    splitFirst? (("...").toList) (s.id ++ ("...").toList) = some (s.id, []) := by
  rcases hg.2.2.1 with h | h
  · exact h
  · exact splitFirst?_dots_ext h hdot

theorem splitWs_prefix_cont (i len : Nat) {id : List Char}
    (hid : ∀ c ∈ id, c.isWhitespace = false) (X : List Char) :
    splitWs (natDigits i ++ ' ' :: ' ' :: ' ' :: ' ' ::
      ((natDigits len ++ 'a' :: 'a' :: [',']) ++ ' ' ::
        (('>' :: (id ++ '.' :: '.' :: ['.'])) ++ ' ' :: X))) =
      natDigits i :: (natDigits len ++ 'a' :: 'a' :: [',']) ::
        ('>' :: (id ++ '.' :: '.' :: ['.'])) :: splitWs X := by
  rw [splitWs_token_space (natDigits_ne_nil i) (natDigits_not_ws i) (by decide)]
  rw [splitWs_space (by decide), splitWs_space (by decide), splitWs_space (by decide)]
  rw [splitWs_token_space (by simp [natDigits_ne_nil]) (tok1_not_ws len) (by decide)]
  rw [splitWs_token_space (by simp) (tok2_not_ws hid) (by decide)]

theorem splitWs_prefix_end (i len : Nat) {id : List Char}
    (hid : ∀ c ∈ id, c.isWhitespace = false) :
    splitWs (natDigits i ++ ' ' :: ' ' :: ' ' :: ' ' ::
      ((natDigits len ++ 'a' :: 'a' :: [',']) ++ ' ' ::
        ('>' :: (id ++ '.' :: '.' :: ['.'])))) =
      [natDigits i, natDigits len ++ 'a' :: 'a' :: [','],
        '>' :: (id ++ '.' :: '.' :: ['.'])] := by
  rw [splitWs_token_space (natDigits_ne_nil i) (natDigits_not_ws i) (by decide)]
  rw [splitWs_space (by decide), splitWs_space (by decide), splitWs_space (by decide)]
  rw [splitWs_token_space (by simp [natDigits_ne_nil]) (tok1_not_ws len) (by decide)]
  rw [splitWs_single (by simp) (tok2_not_ws hid)]

theorem splitFirst?_at_prefix (i len : Nat) {id : List Char}
    (hid : ∀ c ∈ id, c.isWhitespace = false) (R : List Char) :
    splitFirst? ((" at ").toList)
      (natDigits i ++ ' ' :: ' ' :: ' ' :: ' ' ::
        ((natDigits len ++ 'a' :: 'a' :: [',']) ++ ' ' ::
          (('>' :: (id ++ '.' :: '.' :: ['.'])) ++ R))) =
      (splitFirst? ((" at ").toList) R).map
        fun p => (natDigits i ++ ' ' :: ' ' :: ' ' :: ' ' ::
          ((natDigits len ++ 'a' :: 'a' :: [',']) ++ ' ' ::
            (('>' :: (id ++ '.' :: '.' :: ['.'])) ++ p.1)), p.2) := by
  obtain ⟨d, ds, hd, hdig⟩ := natDigits_head? len
  rw [splitFirst?_at_chunk (fun c hc => not_ws_ne_space (natDigits_not_ws i c hc))]
  rw [splitFirst?_at_space (by rw [List.head?_cons]; decide),
    splitFirst?_at_space (by rw [List.head?_cons]; decide),
    splitFirst?_at_space (by rw [List.head?_cons]; decide)]
  rw [splitFirst?_at_space (by
    rw [List.head?_append_of_ne_nil, List.head?_append_of_ne_nil]
    · rw [hd, List.head?_cons]
      intro he
      rw [Option.some.injEq] at he
      exact isDigit_ne hdig (by decide) he
    · exact natDigits_ne_nil len
    · simp [natDigits_ne_nil])]
  rw [splitFirst?_at_chunk (fun c hc => not_ws_ne_space (tok1_not_ws len c hc))]
  rw [splitFirst?_at_space (by rw [List.cons_append, List.head?_cons]; decide)]
  rw [splitFirst?_at_chunk (fun c hc => not_ws_ne_space (tok2_not_ws hid c hc))]
  cases splitFirst? ((" at ").toList) R <;> simp

theorem line_getLast_cont (i len : Nat) (id : List Char) {R : List Char} (hR : R ≠ []) :
    (natDigits i ++ ' ' :: ' ' :: ' ' :: ' ' ::
      ((natDigits len ++ 'a' :: 'a' :: [',']) ++ ' ' ::
        (('>' :: (id ++ '.' :: '.' :: ['.'])) ++ R))).getLast? = R.getLast? := by
  rw [List.getLast?_append_of_ne_nil _ (by simp)]
  rw [getLast?_cons_of_ne_nil (by simp), getLast?_cons_of_ne_nil (by simp),
    getLast?_cons_of_ne_nil (by simp), getLast?_cons_of_ne_nil (by simp)]
  rw [List.getLast?_append_of_ne_nil _ (by simp)]
  rw [getLast?_cons_of_ne_nil (by simp)]
  rw [List.getLast?_append_of_ne_nil _ hR]

theorem line_getLast_end (i len : Nat) (id : List Char) :
    (natDigits i ++ ' ' :: ' ' :: ' ' :: ' ' ::
      ((natDigits len ++ 'a' :: 'a' :: [',']) ++ ' ' ::
        ('>' :: (id ++ '.' :: '.' :: ['.'])))).getLast? = some '.' := by
  rw [List.getLast?_append_of_ne_nil _ (by simp)]
  rw [getLast?_cons_of_ne_nil (by simp), getLast?_cons_of_ne_nil (by simp),
    getLast?_cons_of_ne_nil (by simp), getLast?_cons_of_ne_nil (by simp)]
  rw [List.getLast?_append_of_ne_nil _ (by simp)]
  rw [getLast?_cons_of_ne_nil (by simp)]
  rw [getLast?_cons_of_ne_nil (by simp)]
  rw [List.getLast?_append_of_ne_nil _ (by simp)]
  rfl

theorem line_head_ne_gt (i : Nat) (R : List Char) :
    (natDigits i ++ R).head? ≠ some '>' := by
  obtain ⟨d, ds, hd, hdig⟩ := natDigits_head? i
  rw [hd, List.cons_append, List.head?_cons]
  intro he
  rw [Option.some.injEq] at he
  exact isDigit_ne hdig (by decide) he

theorem reparse_write_sequence {s : Sequence} (hg : GoodSeq s)
    (hdot : s.id.getLast? ≠ some '.') (i : Nat) :
    parse_sequence_line (write_sequence i s) = .ok (roundSeq s) ∧
    (splitWs (write_sequence i s)).head? = some (natDigits i) ∧
    (write_sequence i s).head? ≠ some '>' := by
  obtain ⟨len, id, ident, rep⟩ := s
  obtain ⟨hidws, hidhead, hiddots, hlen, hexcl⟩ := hg
  have hseg : firstSegment (("...").toList) (id ++ ("...").toList) = id := by
    unfold firstSegment
    rw [goodSeq_dots ⟨hidws, hidhead, hiddots, hlen, hexcl⟩ hdot]
  cases ident with
  | some q =>
    have hrep : rep = false := hexcl rfl
    subst hrep
    have hline : write_sequence i ⟨len, id, some q, false⟩ =
        natDigits i ++ ' ' :: ' ' :: ' ' :: ' ' ::
          ((natDigits len ++ 'a' :: 'a' :: [',']) ++ ' ' ::
            (('>' :: (id ++ '.' :: '.' :: ['.'])) ++ ' ' ::
              (['a', 't'] ++ ' ' :: (fmt2 q ++ ['%'])))) := by
      simp [write_sequence]
    have htok : splitWs (write_sequence i ⟨len, id, some q, false⟩) =
        [natDigits i, natDigits len ++ 'a' :: 'a' :: [','],
          '>' :: (id ++ '.' :: '.' :: ['.']), ['a', 't'], fmt2 q ++ ['%']] := by
      rw [hline, splitWs_prefix_cont i len hidws]
      rw [splitWs_token_space (by simp) atTok_not_ws (by decide)]
      rw [splitWs_single (by simp) (fmt2pct_not_ws q)]
    have hat : ∃ P, splitFirst? ((" at ").toList) (write_sequence i ⟨len, id, some q, false⟩) =
        some (P, fmt2 q ++ ['%']) := by
      rw [hline, splitFirst?_at_prefix i len hidws]
      rw [show (' ' :: (['a', 't'] ++ ' ' :: (fmt2 q ++ ['%']))) =
        (" at ").toList ++ (fmt2 q ++ ['%']) from rfl]
      rw [splitFirst?_sep_self (by decide)]
      exact ⟨_, rfl⟩
    have hlast : (write_sequence i ⟨len, id, some q, false⟩).getLast? = some '%' := by
      rw [hline, line_getLast_cont i len id (by simp)]
      rw [getLast?_cons_of_ne_nil (by simp)]
      rw [List.getLast?_append_of_ne_nil _ (by simp)]
      rw [getLast?_cons_of_ne_nil (by simp)]
      rw [getLast?_append_singleton]
    obtain ⟨P, hP⟩ := hat
    obtain ⟨fd, hfd, hfdig⟩ := fmt2_getLast_digit q
    refine ⟨?_, by rw [htok]; rfl, by rw [hline]; exact line_head_ne_gt i _⟩
    simp only [parse_sequence_line]
    rw [htok]
    rw [if_neg (by simp)]
    rw [show ([natDigits i, natDigits len ++ 'a' :: 'a' :: [','],
      '>' :: (id ++ '.' :: '.' :: ['.']), ['a', 't'],
      fmt2 q ++ ['%']] : List (List Char)).getD 1 [] =
      natDigits len ++ ("aa,").toList from rfl]
    rw [stripSuffix?_append]
    dsimp only
    rw [parseU32_natDigits hlen]
    rw [show ([natDigits i, natDigits len ++ 'a' :: 'a' :: [','],
      '>' :: (id ++ '.' :: '.' :: ['.']), ['a', 't'],
      fmt2 q ++ ['%']] : List (List Char)).getD 2 [] =
      '>' :: (id ++ ("...").toList) from rfl]
    rw [List.dropWhile_cons, if_pos (by decide)]
    rw [dropWhile_gt_id hidhead]
    rw [hseg, hlast, hP]
    dsimp only
    rw [trimRightPercent_append_percent hfd (isDigit_ne hfdig (by decide))]
    rw [parseFloat?_fmt2]
    rfl
  | none =>
    cases rep with
    | true =>
      have hline : write_sequence i ⟨len, id, none, true⟩ =
          natDigits i ++ ' ' :: ' ' :: ' ' :: ' ' ::
            ((natDigits len ++ 'a' :: 'a' :: [',']) ++ ' ' ::
              (('>' :: (id ++ '.' :: '.' :: ['.'])) ++ ' ' :: ['*'])) := by
        simp [write_sequence]
      have htok : splitWs (write_sequence i ⟨len, id, none, true⟩) =
          [natDigits i, natDigits len ++ 'a' :: 'a' :: [','],
            '>' :: (id ++ '.' :: '.' :: ['.']), ['*']] := by
        rw [hline, splitWs_prefix_cont i len hidws]
        rw [splitWs_single (by simp)
          (by
            intro c hc
            rw [List.mem_singleton] at hc
            rw [hc]; decide)]
      have hat : splitFirst? ((" at ").toList)
          (write_sequence i ⟨len, id, none, true⟩) = none := by
        rw [hline, splitFirst?_at_prefix i len hidws]
        rw [show splitFirst? ((" at ").toList) (' ' :: ['*']) = none from by decide]
        rfl
      have hlast : (write_sequence i ⟨len, id, none, true⟩).getLast? = some '*' := by
        rw [hline, line_getLast_cont i len id (by simp)]
        rfl
      refine ⟨?_, by rw [htok]; rfl, by rw [hline]; exact line_head_ne_gt i _⟩
      simp only [parse_sequence_line]
      rw [htok]
      rw [if_neg (by simp)]
      rw [show ([natDigits i, natDigits len ++ 'a' :: 'a' :: [','],
        '>' :: (id ++ '.' :: '.' :: ['.']), ['*']] : List (List Char)).getD 1 [] =
        natDigits len ++ ("aa,").toList from rfl]
      rw [stripSuffix?_append]
      dsimp only
      rw [parseU32_natDigits hlen]
      rw [show ([natDigits i, natDigits len ++ 'a' :: 'a' :: [','],
        '>' :: (id ++ '.' :: '.' :: ['.']), ['*']] : List (List Char)).getD 2 [] =
        '>' :: (id ++ ("...").toList) from rfl]
      rw [List.dropWhile_cons, if_pos (by decide)]
      rw [dropWhile_gt_id hidhead]
      rw [hseg, hlast, hat]
      rfl
    | false =>
      have hline : write_sequence i ⟨len, id, none, false⟩ =
          natDigits i ++ ' ' :: ' ' :: ' ' :: ' ' ::
            ((natDigits len ++ 'a' :: 'a' :: [',']) ++ ' ' ::
              ('>' :: (id ++ '.' :: '.' :: ['.']))) := by
        simp [write_sequence]
      have htok : splitWs (write_sequence i ⟨len, id, none, false⟩) =
          [natDigits i, natDigits len ++ 'a' :: 'a' :: [','],
            '>' :: (id ++ '.' :: '.' :: ['.'])] := by
        rw [hline, splitWs_prefix_end i len hidws]
      have hat : splitFirst? ((" at ").toList)
          (write_sequence i ⟨len, id, none, false⟩) = none := by
        rw [hline]
        have h := splitFirst?_at_prefix i len hidws []
        rw [List.append_nil] at h
        rw [h]
        rfl
      have hlast : (write_sequence i ⟨len, id, none, false⟩).getLast? = some '.' := by
        rw [hline, line_getLast_end]
      refine ⟨?_, by rw [htok]; rfl, by rw [hline]; exact line_head_ne_gt i _⟩
      simp only [parse_sequence_line]
      rw [htok]
      rw [if_neg (by simp)]
      rw [show ([natDigits i, natDigits len ++ 'a' :: 'a' :: [','],
        '>' :: (id ++ '.' :: '.' :: ['.'])] : List (List Char)).getD 1 [] =
        natDigits len ++ ("aa,").toList from rfl]
      rw [stripSuffix?_append]
      dsimp only
      rw [parseU32_natDigits hlen]
      rw [show ([natDigits i, natDigits len ++ 'a' :: 'a' :: [','],
        '>' :: (id ++ '.' :: '.' :: ['.'])] : List (List Char)).getD 2 [] =
        '>' :: (id ++ ("...").toList) from rfl]
      rw [List.dropWhile_cons, if_pos (by decide)]
      rw [dropWhile_gt_id hidhead]
      rw [hseg, hlast, hat]
      rfl

/-! ## Lemmas: round-tripping whole clusters -/

theorem writeSeqLinesFrom_length :
    ∀ (seqs : List Sequence) (i : Nat), (writeSeqLinesFrom i seqs).length = seqs.length := by
  intro seqs
  induction seqs with
  | nil => intro i; rfl
  | cons s ss ih =>
    intro i
    rw [writeSeqLinesFrom, List.length_cons, List.length_cons, ih (i + 1)]

theorem writeSeqLines_index :
    ∀ (seqs : List Sequence),
      (∀ s ∈ seqs, GoodSeq s ∧ s.id.getLast? ≠ some '.') →
      ∀ (i0 i : Nat), i < seqs.length →
        (splitWs ((writeSeqLinesFrom i0 seqs).getD i [])).head? =
          some (natDigits (i0 + i)) := by
  intro seqs
  induction seqs with
  | nil => intro _ i0 i h; exact absurd h (by simp)
  | cons s ss ih =>
    intro h i0 i hi
    cases i with
    | zero =>
      rw [writeSeqLinesFrom]
      rw [show (write_sequence i0 s :: writeSeqLinesFrom (i0 + 1) ss).getD 0 [] =
        write_sequence i0 s from rfl]
      rw [Nat.add_zero]
      exact (reparse_write_sequence (h s (by simp)).1 (h s (by simp)).2 i0).2.1
    | succ i' =>
      rw [writeSeqLinesFrom]
      rw [show (write_sequence i0 s :: writeSeqLinesFrom (i0 + 1) ss).getD (i' + 1) [] =
        (writeSeqLinesFrom (i0 + 1) ss).getD i' [] from rfl]
      rw [show i0 + (i' + 1) = (i0 + 1) + i' by omega]
      exact ih (fun x hx => h x (by simp [hx])) (i0 + 1) i' (by simpa using hi)

theorem processLines_writeSeqLines :
    ∀ (seqs : List Sequence), (∀ s ∈ seqs, GoodSeq s ∧ s.id.getLast? ≠ some '.') →
      ∀ (i j : Nat) (acc : List Sequence) (rest : List (List Char)),
        processLines (some ⟨j, acc⟩) (writeSeqLinesFrom i seqs ++ rest) =
          processLines (some ⟨j, acc ++ seqs.map roundSeq⟩) rest := by
  intro seqs
  induction seqs with
  | nil => intro _ i j acc rest; rw [writeSeqLinesFrom, List.nil_append, List.map_nil,
      List.append_nil]
  | cons s ss ih =>
    intro h i j acc rest
    rw [writeSeqLinesFrom, List.cons_append]
    obtain ⟨hps, -, hhd⟩ := reparse_write_sequence (h s (by simp)).1 (h s (by simp)).2 i
    rw [processLines_seq_ok hhd hps]
    rw [show (⟨j, acc⟩ : Cluster).cluster_id = j from rfl,
      show (⟨j, acc⟩ : Cluster).sequences = acc from rfl]
    rw [ih (fun x hx => h x (by simp [hx])) (i + 1) j (acc ++ [roundSeq s]) rest]
    rw [List.map_cons, show acc ++ roundSeq s :: List.map roundSeq ss =
      (acc ++ [roundSeq s]) ++ List.map roundSeq ss by simp]

theorem write_cluster_eq (c : Cluster) :
    write_cluster c = ('>' :: (("Cluster ").toList ++ natDigits c.cluster_id)) ::
      writeSeqLinesFrom 0 c.sequences := rfl

theorem processLines_writeClusters :
    ∀ (cs : List Cluster),
      (∀ c ∈ cs, ∀ s ∈ c.sequences, GoodSeq s ∧ s.id.getLast? ≠ some '.') →
      ∀ (P : Cluster), ∃ cs1 st1,
        processLines (some P) (writeClusters cs) = (cs1, st1, none) ∧
        cs1 ++ st1.toList = P :: normClustersFrom (P.cluster_id + 1) cs := by
  intro cs
  induction cs with
  | nil =>
    intro _ P
    exact ⟨[], some P, by rw [show writeClusters [] = [] from rfl, processLines_nil], rfl⟩
  | cons c cs' ih =>
    intro h P
    rw [show writeClusters (c :: cs') = write_cluster c ++ writeClusters cs' from by
      simp [writeClusters]]
    rw [write_cluster_eq, List.cons_append]
    rcases hx : processLines (some ⟨P.cluster_id + 1, []⟩)
        (writeSeqLinesFrom 0 c.sequences ++ writeClusters cs') with ⟨cs1, st1, e1⟩
    rw [processLines_header (by rw [List.head?_cons]) P _]
    rw [hx]
    rw [processLines_writeSeqLines c.sequences (h c (by simp)) 0 (P.cluster_id + 1) []
      (writeClusters cs')] at hx
    rw [List.nil_append] at hx
    obtain ⟨cs2, st2, heq, hflat⟩ := ih (fun c' hc' => h c' (by simp [hc']))
      ⟨P.cluster_id + 1, c.sequences.map roundSeq⟩
    rw [heq] at hx
    rw [Prod.mk.injEq, Prod.mk.injEq] at hx
    obtain ⟨h1, h2, h3⟩ := hx
    subst h1; subst h2
    refine ⟨P :: cs2, st2, by rw [← h3], ?_⟩
    rw [List.cons_append, hflat]
    rfl

theorem runItems_writeClusters {cs : List Cluster}
    (h : ∀ c ∈ cs, ∀ s ∈ c.sequences, GoodSeq s ∧ s.id.getLast? ≠ some '.') :
    runItems none (writeClusters cs) = (normClustersFrom 0 cs, none) := by
  cases cs with
  | nil => rfl
  | cons c cs' =>
    unfold runItems
    rw [show writeClusters (c :: cs') = write_cluster c ++ writeClusters cs' from by
      simp [writeClusters]]
    rw [write_cluster_eq, List.cons_append]
    rw [processLines_header_none (by rw [List.head?_cons])]
    rw [processLines_writeSeqLines c.sequences (h c (by simp)) 0 0 []
      (writeClusters cs')]
    rw [List.nil_append]
    obtain ⟨cs2, st2, heq, hflat⟩ := processLines_writeClusters cs'
      (fun c' hc' => h c' (by simp [hc'])) ⟨0, c.sequences.map roundSeq⟩
    rw [heq]
    dsimp only
    rw [hflat]
    rfl

/-- C2 counterexample: an id that ends in `.` (legal in the first parse when
the token has no `...` delimiter) is changed by the round trip: `x..` is
written as `>x.....`, which re-parses with id `x`. -/
theorem c2_roundtrip_counterexample :
    runItems none [(">Cluster 0").toList, ("0 5aa, x..").toList] =
      ([⟨0, [⟨5, ("x..").toList, none, false⟩]⟩], none) ∧
    runItems none (writeClusters [⟨0, [⟨5, ("x..").toList, none, false⟩]⟩]) =
      ([⟨0, [⟨5, ("x").toList, none, false⟩]⟩], none) ∧
    ("x").toList ≠ ("x..").toList :=
  ⟨by decide, by decide, by decide⟩

/-- C2 (amended): for every input that parses cleanly and in which no parsed
id ends in `.`, writing every cluster and re-parsing yields the clusters
`normClustersFrom 0 cs`: same `length`, `id` and `is_representative` per
sequence, `identity` mapped through two-decimal rounding (`none` staying
`none`), cluster ids renumbered from 0; and each cluster's written member
lines are as many as its sequences, the i-th line starting with the decimal
numeral of i — whatever the index text of the original input. -/
theorem c2_roundtrip {input : List (List Char)} {cs : List Cluster}
    (h : runItems none input = (cs, none))
    (hdot : ∀ c ∈ cs, ∀ s ∈ c.sequences, s.id.getLast? ≠ some '.') :
    runItems none (writeClusters cs) = (normClustersFrom 0 cs, none) ∧
    ∀ c ∈ cs, (writeSeqLinesFrom 0 c.sequences).length = c.sequences.length ∧
      ∀ i, i < c.sequences.length →
        (splitWs ((writeSeqLinesFrom 0 c.sequences).getD i [])).head? =
          some (natDigits i) := by
  have hgood := runItems_good h
  have hboth : ∀ c ∈ cs, ∀ s ∈ c.sequences, GoodSeq s ∧ s.id.getLast? ≠ some '.' :=
    fun c hc s hs => ⟨hgood c hc s hs, hdot c hc s hs⟩
  refine ⟨runItems_writeClusters hboth, ?_⟩
  intro c hc
  refine ⟨writeSeqLinesFrom_length c.sequences 0, ?_⟩
  intro i hi
  have h2 := writeSeqLines_index c.sequences (hboth c hc) 0 i hi
  simpa using h2

/-- Witness for the amended C2 on a two-member cluster with an identity
percentage, a representative, and original member indices 7 and 3. -/
theorem c2_roundtrip_witness :
    runItems none (writeClusters
        [⟨0, [⟨5, ("ab").toList, some (99 : ℚ), false⟩,
          ⟨7, ("cd").toList, none, true⟩]⟩]) =
      (normClustersFrom 0
        [⟨0, [⟨5, ("ab").toList, some (99 : ℚ), false⟩,
          ⟨7, ("cd").toList, none, true⟩]⟩], none) ∧
    (splitWs ((writeSeqLinesFrom 0
        [⟨5, ("ab").toList, some (99 : ℚ), false⟩,
          ⟨7, ("cd").toList, none, true⟩]).getD 0 [])).head? = some (natDigits 0) ∧
    (splitWs ((writeSeqLinesFrom 0
        [⟨5, ("ab").toList, some (99 : ℚ), false⟩,
          ⟨7, ("cd").toList, none, true⟩]).getD 1 [])).head? = some (natDigits 1) := by
  have h := c2_roundtrip
    (show runItems none [(">Cluster 9").toList, ("7 5aa, >ab... at 99%").toList,
        ("3 7aa, >cd... *").toList] =
      ([⟨0, [⟨5, ("ab").toList, some (99 : ℚ), false⟩,
        ⟨7, ("cd").toList, none, true⟩]⟩], none) from by decide)
    (by decide)
  refine ⟨h.1, ?_, ?_⟩
  · exact (h.2 ⟨0, [⟨5, ("ab").toList, some (99 : ℚ), false⟩,
      ⟨7, ("cd").toList, none, true⟩]⟩ (by decide)).2 0 (by decide)
  · exact (h.2 ⟨0, [⟨5, ("ab").toList, some (99 : ℚ), false⟩,
      ⟨7, ("cd").toList, none, true⟩]⟩ (by decide)).2 1 (by decide)

end Clstr
